import Mathlib

/-!
Verification of the PrioContainer repository (a bounded top-K selection
library) against its natural-language specification.

The source containers store their items in a Rust std BinaryHeap, which is a
max-heap under the item ordering: push adds an item, peek returns a greatest
item, peek_mut allows replacing a greatest item in place, pop removes a
greatest item.  The embedding models the BinaryHeap as a plain list with
multiset semantics: heapPush conses, heapFindMax returns a greatest element
under an explicit Rust-style comparison function, and the replace-at-root
operation is modelled as erasing that element and consing the replacement.
Every observable result proved below depends only on the multiset of stored
items, which is exactly the contract of BinaryHeap for a lawful Ord.

Comparisons are explicit functions cmp : A -> A -> Ordering, mirroring the
Rust Ord trait bound of the generic source code; the Rust tests a <= b,
a < b, a > b on Ord types are cmp a b != .gt, cmp a b = .lt, cmp a b = .gt.
-/

namespace PrioSpec

/-- Result of folding the Rust max-selection over a heap: starting from a
seed, keep the later element whenever it is strictly greater. -/
def foldMax {α : Type*} (cmp : α → α → Ordering) (a : α) (l : List α) : α :=
  l.foldl (fun m y => if cmp m y = Ordering.lt then y else m) a

/-- Model of BinaryHeap::peek, returning a greatest element of the heap
under the comparison, or none when the heap is empty. -/
def heapFindMax {α : Type*} (cmp : α → α → Ordering) : List α → Option α
  | [] => none
  | x :: xs => some (foldMax cmp x xs)

/-- Model of BinaryHeap::push: the heap is a multiset, so the new element is
simply put in front. -/
def heapPush {α : Type*} (x : α) (h : List α) : List α := x :: h

/-- Fuel-guarded worker for draining a BinaryHeap by repeated pop.  The
fuel argument only drives the structural recursion; heapDrain supplies the
heap length, which always suffices. -/
def heapDrainGo {α : Type*} (cmp : α → α → Ordering) [DecidableEq α] :
    ℕ → List α → List α
  | 0, _ => []
  | n + 1, h =>
      match heapFindMax cmp h with
      | none => []
      | some b => b :: heapDrainGo cmp n (h.erase b)

/-- Model of draining a BinaryHeap by repeated pop: extract a greatest
element, then continue on the rest.  This is SortedHeapIter / StableHeapIter
from src/iter.rs. -/
def heapDrain {α : Type*} (cmp : α → α → Ordering) [DecidableEq α]
    (h : List α) : List α :=
  heapDrainGo cmp h.length h

/-- Comparison function induced by a linear order: the shape in which the
generic container code receives a lawful Rust Ord implementation. -/
def cmpOf (α : Type*) [LinearOrder α] : α → α → Ordering := fun a b => compare a b

/-!
Plain min-oriented container, src/src/lib.rs.

pub struct PrioContainer of T holds heap: BinaryHeap of T and capacity: usize.
Note that its insert returns nothing (unit), unlike the other variants.
-/

/-- State of PrioContainer from src/src/lib.rs. -/
structure PrioContainer (α : Type*) where
  heap : List α
  capacity : ℕ
  deriving DecidableEq

namespace PrioContainer

/-- Model of PrioContainer::new, which panics when capacity is zero; the
panic is modelled as none. -/
def new (α : Type*) (capacity : ℕ) : Option (PrioContainer α) :=
  if capacity = 0 then none else some { heap := [], capacity := capacity }

/-- Model of PrioContainer::insert (src/src/lib.rs lines 27-40).  The source
returns unit, so the model returns only the new state.  The none branch of
the peek models the unsafe unwrap_unchecked, which is unreachable when the
capacity is at least one. -/
def insert {α : Type*} (cmp : α → α → Ordering) [DecidableEq α]
    (s : PrioContainer α) (item : α) : PrioContainer α :=
  if s.heap.length < s.capacity then { s with heap := heapPush item s.heap }
  else
    match heapFindMax cmp s.heap with
    | none => s
    | some b =>
        if cmp b item = Ordering.gt then
          { s with heap := heapPush item (s.heap.erase b) }
        else s

/-- Model of extending the container with a whole input sequence
(the Extend impl of src/src/lib.rs). -/
def insertAll {α : Type*} (cmp : α → α → Ordering) [DecidableEq α]
    (s : PrioContainer α) (l : List α) : PrioContainer α :=
  l.foldl (insert cmp) s

/-- Model of PrioContainer::len. -/
def len {α : Type*} (s : PrioContainer α) : ℕ := s.heap.length

/-- Model of PrioContainer::capacity, which returns the stored capacity
field. -/
def capacityFn {α : Type*} (s : PrioContainer α) : ℕ := s.capacity

/-- Model of consuming the container through IntoIterator / SortedHeapIter:
repeatedly pop the greatest element. -/
def drain {α : Type*} (cmp : α → α → Ordering) [DecidableEq α]
    (s : PrioContainer α) : List α := heapDrain cmp s.heap

end PrioContainer

/-!
Stability layer.  The wrapper type HeapItem lives in src/src/stable/item.rs,
which is not present under src (only its uses in stable/mod.rs, iter.rs and
unique/stable.rs are).  It is modelled here from spec section 4.4.
-/

/-- Modelled from the spec: structure of the missing src/src/stable/item.rs.
Spec section 4.4: every stored item is paired with the arrival sequence
number assigned at first insertion of that logical entry.  The accessors
as_ref and into_inner of the source are the field item; the counter field
is named as in its uses (stable.rs reads i.counter). -/
structure HeapItem (α : Type*) where
  item : α
  counter : ℕ
  deriving DecidableEq

/-- Modelled from the spec: the Ord implementation of the missing
src/src/stable/item.rs.  Spec section 4.4: the comparator used internally is
composite: primary key is the base order on the payload; the secondary key,
used only to break exact ties, favors the item with the smaller sequence
number (earlier arrival) as the greater element.  The direction is pinned by
the repository test test_stability_simple (src/tests/test.rs line 86), whose
drain pops equal-priority items in arrival order. -/
def HeapItem.cmp {α : Type*} (cmpa : α → α → Ordering)
    (a b : HeapItem α) : Ordering :=
  match cmpa a.item b.item with
  | Ordering.eq => compare b.counter a.counter
  | o => o

/-!
Containers of src/src/stable/mod.rs, src/src/unique/mod.rs and
src/src/unique/stable.rs.  The allocation-capacity fields model what the
Rust BinaryHeap::capacity() method reports: 0 for BinaryHeap::new() (which
does not allocate), the requested size for BinaryHeap::with_capacity.
Allocation growth during later pushes is left unmodelled; no theorem below
depends on the value after an insert.
-/

/-- State of StablePrioContainer from src/src/stable/mod.rs. -/
structure StablePrioContainer (α : Type*) where
  heap : List (HeapItem α)
  total_pushed : ℕ
  capacity : ℕ
  heapAlloc : ℕ
  deriving DecidableEq

namespace StablePrioContainer

/-- Model of StablePrioContainer::new (asserts capacity > 0; the panic is
modelled as none).  BinaryHeap::new() allocates nothing. -/
def new (α : Type*) (capacity : ℕ) : Option (StablePrioContainer α) :=
  if 0 < capacity then
    some { heap := [], total_pushed := 0, capacity := capacity, heapAlloc := 0 }
  else none

/-- Model of StablePrioContainer::new_allocated: the pre-reservation size is
capped at the capacity and handed to BinaryHeap::with_capacity. -/
def new_allocated (α : Type*) (capacity alloc_size : ℕ) :
    Option (StablePrioContainer α) :=
  if 0 < capacity then
    some { heap := [], total_pushed := 0, capacity := capacity,
           heapAlloc := min alloc_size capacity }
  else none

/-- Model of StablePrioContainer::insert (src/src/stable/mod.rs lines
52-72).  The counter is incremented first and the new HeapItem carries its
updated value; comparisons use the composite HeapItem order.  The none
branch of the peek models the unsafe unwrap_unchecked, unreachable when the
capacity is at least one. -/
def insert {α : Type*} (cmpa : α → α → Ordering) [DecidableEq α]
    (s : StablePrioContainer α) (item : α) :
    StablePrioContainer α × Bool :=
  let total := s.total_pushed + 1
  if s.heap.length < s.capacity then
    ({ s with heap := heapPush ⟨item, total⟩ s.heap, total_pushed := total },
      true)
  else
    match heapFindMax (HeapItem.cmp cmpa) s.heap with
    | none => ({ s with total_pushed := total }, false)
    | some b =>
        if HeapItem.cmp cmpa b ⟨item, total⟩ ≠ Ordering.gt then
          ({ s with total_pushed := total }, false)
        else
          let h2 := heapPush ⟨item, total⟩ (s.heap.erase b)
          ({ s with heap := h2, total_pushed := total }, true)

/-- Model of the Extend impl: insert every element, discarding the
booleans. -/
def insertAll {α : Type*} (cmpa : α → α → Ordering) [DecidableEq α]
    (s : StablePrioContainer α) (l : List α) : StablePrioContainer α :=
  l.foldl (fun st x => (insert cmpa st x).1) s

/-- Model of StablePrioContainer::len. -/
def len {α : Type*} (s : StablePrioContainer α) : ℕ := s.heap.length

/-- Model of StablePrioContainer::capacity (src/src/stable/mod.rs lines
104-107): the source returns self.heap.capacity(), the allocation capacity
of the backing BinaryHeap, not the configured bound in the capacity
field. -/
def capacityFn {α : Type*} (s : StablePrioContainer α) : ℕ := s.heapAlloc

/-- Model of StablePrioContainer::total_pushed. -/
def total_pushedFn {α : Type*} (s : StablePrioContainer α) : ℕ :=
  s.total_pushed

/-- Model of draining through IntoIterator / StableHeapIter: pop greatest
HeapItem repeatedly and unwrap with into_inner. -/
def drain {α : Type*} (cmpa : α → α → Ordering) [DecidableEq α]
    (s : StablePrioContainer α) : List α :=
  (heapDrain (HeapItem.cmp cmpa) s.heap).map HeapItem.item

end StablePrioContainer

/-- Membership test of the std HashSet of inserted items: the Rust set is
keyed by the Hash and Eq implementations of the element type, modelled by
the explicit equality predicate beq (assumed consistent with Hash, as the
HashSet contract requires). -/
def hashContains {α : Type*} (beq : α → α → Bool) (hash : List α)
    (x : α) : Bool :=
  hash.any (fun w => beq w x)

/-- State of UniquePrioContainer from src/src/unique/mod.rs. -/
structure UniquePrioContainer (α : Type*) where
  container : List α
  hash : List α
  total_pushed : ℕ
  capacity : ℕ
  containerAlloc : ℕ
  deriving DecidableEq

namespace UniquePrioContainer

/-- Model of UniquePrioContainer::new (src/src/unique/mod.rs lines 25-35):
no check of the capacity — unlike the other variants, capacity 0 is
accepted. -/
def new (α : Type*) (capacity : ℕ) : UniquePrioContainer α :=
  { container := [], hash := [], total_pushed := 0, capacity := capacity,
    containerAlloc := 0 }

/-- Model of UniquePrioContainer::new_allocated: also no capacity check. -/
def new_allocated (α : Type*) (capacity : ℕ) : UniquePrioContainer α :=
  { container := [], hash := [], total_pushed := 0, capacity := capacity,
    containerAlloc := capacity }

/-- Model of UniquePrioContainer::replace_eq (src/src/unique/mod.rs lines
87-95): if some resident equals the new item under Eq while the new item is
strictly smaller under Ord, drain the heap, keep only the non-equal
residents and push the new item. -/
def replace_eq {α : Type*} (cmpa : α → α → Ordering) (beq : α → α → Bool)
    (s : UniquePrioContainer α) (item : α) : UniquePrioContainer α :=
  let need_replace := s.container.any
    (fun i => beq i item && decide (cmpa item i = Ordering.lt))
  if need_replace then
    { s with container :=
        heapPush item (s.container.filter (fun i => !(beq i item))) }
  else s

/-- Model of UniquePrioContainer::insert (src/src/unique/mod.rs lines
51-78).  The hash registration happens before the capacity check, and the
duplicate path does not touch total_pushed.  The none branch of the peek
models the unsafe unwrap_unchecked on an empty heap (reachable for capacity
0, where the source has undefined behaviour). -/
def insert {α : Type*} (cmpa : α → α → Ordering) (beq : α → α → Bool)
    [DecidableEq α] (s : UniquePrioContainer α) (item : α) :
    UniquePrioContainer α × Bool :=
  if hashContains beq s.hash item then
    (replace_eq cmpa beq s item, false)
  else
    let s1 := { s with hash := item :: s.hash }
    if s1.container.length < s1.capacity then
      let c2 := heapPush item s1.container
      ({ s1 with container := c2, total_pushed := s1.total_pushed + 1 }, true)
    else
      match heapFindMax cmpa s1.container with
      | none => (s1, false)
      | some b =>
          if cmpa b item ≠ Ordering.gt then
            ({ s1 with total_pushed := s1.total_pushed + 1 }, false)
          else
            let c2 := heapPush item (s1.container.erase b)
            ({ s1 with container := c2, total_pushed := s1.total_pushed + 1 }, true)

/-- Variant of insert that makes the unsafe unwrap_unchecked explicit: the
result is none exactly when the source dereferences the peek of an empty
heap, which is undefined behaviour (possible because new accepts capacity
0). -/
def insertChecked {α : Type*} (cmpa : α → α → Ordering)
    (beq : α → α → Bool) [DecidableEq α] (s : UniquePrioContainer α)
    (item : α) : Option (UniquePrioContainer α × Bool) :=
  if hashContains beq s.hash item then
    some (replace_eq cmpa beq s item, false)
  else
    let s1 := { s with hash := item :: s.hash }
    if s1.container.length < s1.capacity then
      let c2 := heapPush item s1.container
      some ({ s1 with container := c2, total_pushed := s1.total_pushed + 1 }, true)
    else
      match heapFindMax cmpa s1.container with
      | none => none
      | some b =>
          if cmpa b item ≠ Ordering.gt then
            some ({ s1 with total_pushed := s1.total_pushed + 1 }, false)
          else
            let c2 := heapPush item (s1.container.erase b)
            some ({ s1 with container := c2, total_pushed := s1.total_pushed + 1 }, true)

/-- Model of the Extend impl of the unique container. -/
def insertAll {α : Type*} (cmpa : α → α → Ordering) (beq : α → α → Bool)
    [DecidableEq α] (s : UniquePrioContainer α) (l : List α) :
    UniquePrioContainer α :=
  l.foldl (fun st x => (insert cmpa beq st x).1) s

/-- Model of UniquePrioContainer::len. -/
def len {α : Type*} (s : UniquePrioContainer α) : ℕ := s.container.length

/-- Model of UniquePrioContainer::capacity (src/src/unique/mod.rs lines
104-107): the source returns self.container.capacity(), the allocation
capacity of the backing BinaryHeap. -/
def capacityFn {α : Type*} (s : UniquePrioContainer α) : ℕ :=
  s.containerAlloc

/-- Model of UniquePrioContainer::total_pushed. -/
def total_pushedFn {α : Type*} (s : UniquePrioContainer α) : ℕ :=
  s.total_pushed

end UniquePrioContainer

/-- State of StableUniquePrioContainer from src/src/unique/stable.rs: a
stable core plus the membership hash set. -/
structure StableUniquePrioContainer (α : Type*) where
  container : StablePrioContainer α
  hash : List α
  deriving DecidableEq

namespace StableUniquePrioContainer

/-- Model of StableUniquePrioContainer::new: delegates to the stable core
(so capacity 0 panics). -/
def new (α : Type*) (capacity : ℕ) : Option (StableUniquePrioContainer α) :=
  (StablePrioContainer.new α capacity).map
    (fun c => { container := c, hash := [] })

/-- Model of StableUniquePrioContainer::new_allocated. -/
def new_allocated (α : Type*) (capacity alloc_size : ℕ) :
    Option (StableUniquePrioContainer α) :=
  (StablePrioContainer.new_allocated α capacity alloc_size).map
    (fun c => { container := c, hash := [] })

/-- Model of StableUniquePrioContainer::replace_eq (src/src/unique/stable.rs
lines 48-67): find a resident equal to the item under Eq and strictly
greater under Ord, remember its counter, drop every equal resident, and
push the new payload with the remembered counter. -/
def replace_eq {α : Type*} (cmpa : α → α → Ordering) (beq : α → α → Bool)
    [DecidableEq α] (s : StableUniquePrioContainer α) (item : α) :
    StableUniquePrioContainer α :=
  match (s.container.heap.find?
      (fun i => beq i.item item && decide (cmpa item i.item = Ordering.lt))).map
      HeapItem.counter with
  | some old_counter =>
      let h2 := heapPush ⟨item, old_counter⟩
        (s.container.heap.filter (fun i => !(beq i.item item)))
      { s with container := { s.container with heap := h2 } }
  | none => s

/-- Model of StableUniquePrioContainer::insert (src/src/unique/stable.rs
lines 31-39). -/
def insert {α : Type*} (cmpa : α → α → Ordering) (beq : α → α → Bool)
    [DecidableEq α] (s : StableUniquePrioContainer α) (item : α) :
    StableUniquePrioContainer α × Bool :=
  if hashContains beq s.hash item then
    (replace_eq cmpa beq s item, false)
  else
    let r := StablePrioContainer.insert cmpa s.container item
    ({ container := r.1, hash := item :: s.hash }, r.2)

/-- Model of the Extend impl of the stable unique container. -/
def insertAll {α : Type*} (cmpa : α → α → Ordering) (beq : α → α → Bool)
    [DecidableEq α] (s : StableUniquePrioContainer α) (l : List α) :
    StableUniquePrioContainer α :=
  l.foldl (fun st x => (insert cmpa beq st x).1) s

/-- Model of StableUniquePrioContainer::len. -/
def len {α : Type*} (s : StableUniquePrioContainer α) : ℕ :=
  s.container.heap.length

/-- Model of StableUniquePrioContainer::capacity, which delegates to the
stable core capacity() and therefore also reports the heap allocation. -/
def capacityFn {α : Type*} (s : StableUniquePrioContainer α) : ℕ :=
  StablePrioContainer.capacityFn s.container

/-- Model of StableUniquePrioContainer::total_pushed. -/
def total_pushedFn {α : Type*} (s : StableUniquePrioContainer α) : ℕ :=
  s.container.total_pushed

/-- Model of draining through IntoIterator / StableHeapIter. -/
def drain {α : Type*} (cmpa : α → α → Ordering) [DecidableEq α]
    (s : StableUniquePrioContainer α) : List α :=
  (heapDrain (HeapItem.cmp cmpa) s.container.heap).map HeapItem.item

end StableUniquePrioContainer

/-- CustomOrd from src/src/lib.rs lines 162-199: wraps a value together
with an explicit u32 rank and compares purely by the rank, so distinct
values can tie. -/
structure CustomOrd (α : Type*) where
  ord : ℕ
  val : α
  deriving DecidableEq

/-- Model of the Ord impl of CustomOrd: compare the ranks only. -/
def CustomOrd.cmp {α : Type*} (a b : CustomOrd α) : Ordering :=
  compare a.ord b.ord

/-- Characterisation of a bounded selection: the resident multiset h is
contained in the processed input m, has exactly min K (card m) elements,
and every resident element is at most every discarded element. -/
def KBest {α : Type*} [LinearOrder α] (K : ℕ) (m h : Multiset α) : Prop :=
  h ≤ m ∧ Multiset.card h = min K (Multiset.card m) ∧
    ∀ a ∈ h, ∀ b ∈ m - h, a ≤ b

/-- Invariant tying the membership hash set of the stable unique container
to its heap: every resident key is registered in the hash set, and no two
residents share a key.  Both facts hold in every reachable state and are
what the duplicate-handling paths of the source rely on. -/
def SUInv {α : Type*} (beq : α → α → Bool)
    (s : StableUniquePrioContainer α) : Prop :=
  (∀ i ∈ s.container.heap, ∃ w ∈ s.hash, beq w i.item = true) ∧
  s.container.heap.Pairwise (fun a b => beq a.item b.item = false)

theorem cmpOf_apply {α : Type*} [LinearOrder α] (a b : α) :
    cmpOf α a b = compare a b := rfl

theorem foldMax_cons {α : Type*} (cmp : α → α → Ordering) (a y : α)
    (l : List α) :
    foldMax cmp a (y :: l)
      = foldMax cmp (if cmp a y = Ordering.lt then y else a) l := rfl

/-- Membership of the chosen maximum, with no assumptions on the comparison:
foldMax always returns one of the candidates. -/
theorem foldMax_mem {α : Type*} (cmp : α → α → Ordering) (a : α) (l : List α) :
    foldMax cmp a l ∈ a :: l := by
  induction l generalizing a with
  | nil => simp [foldMax]
  | cons y ys ih =>
      rw [foldMax_cons]
      by_cases h : cmp a y = Ordering.lt
      · simp only [if_pos h]
        rcases List.mem_cons.mp (ih y) with h1 | h1 <;>
          simp [List.mem_cons, h1]
      · simp only [if_neg h]
        rcases List.mem_cons.mp (ih a) with h1 | h1 <;>
          simp [List.mem_cons, h1]

theorem heapFindMax_mem {α : Type*} {cmp : α → α → Ordering} {h : List α}
    {b : α} (hm : heapFindMax cmp h = some b) : b ∈ h := by
  cases h with
  | nil => simp [heapFindMax] at hm
  | cons x xs =>
      simp only [heapFindMax, Option.some.injEq] at hm
      rw [← hm]
      exact foldMax_mem cmp x xs

theorem heapFindMax_eq_none {α : Type*} {cmp : α → α → Ordering}
    {h : List α} : heapFindMax cmp h = none ↔ h = [] := by
  cases h <;> simp [heapFindMax]

section LinearHeap

variable {α : Type*} [LinearOrder α]

theorem foldMax_le (a : α) (l : List α) :
    ∀ z ∈ a :: l, z ≤ foldMax (cmpOf α) a l := by
  induction l generalizing a with
  | nil => intro z hz; simp at hz; simp [foldMax, hz]
  | cons y ys ih =>
      intro z hz
      rw [foldMax_cons]
      have step : (if cmpOf α a y = Ordering.lt then y else a) ∈ [a, y] := by
        by_cases h : cmpOf α a y = Ordering.lt <;> simp [h]
      have hstep_a : a ≤ (if cmpOf α a y = Ordering.lt then y else a) := by
        by_cases h : cmpOf α a y = Ordering.lt
        · simp only [if_pos h]
          exact le_of_lt (compare_lt_iff_lt.mp h)
        · simp [if_neg h]
      have hstep_y : y ≤ (if cmpOf α a y = Ordering.lt then y else a) := by
        by_cases h : cmpOf α a y = Ordering.lt
        · simp [if_pos h]
        · simp only [if_neg h]
          have : ¬ a < y := fun hl => h (compare_lt_iff_lt.mpr hl)
          exact le_of_not_lt this
      have hrest := ih (if cmpOf α a y = Ordering.lt then y else a)
      rcases List.mem_cons.mp hz with rfl | hz2
      · exact le_trans hstep_a (hrest _ (List.mem_cons_self _ _))
      · rcases List.mem_cons.mp hz2 with rfl | hz3
        · exact le_trans hstep_y (hrest _ (List.mem_cons_self _ _))
        · exact hrest z (List.mem_cons_of_mem _ hz3)

theorem heapFindMax_le {h : List α} {b : α}
    (hm : heapFindMax (cmpOf α) h = some b) : ∀ z ∈ h, z ≤ b := by
  cases h with
  | nil => simp
  | cons x xs =>
      simp only [heapFindMax, Option.some.injEq] at hm
      rw [← hm]
      exact foldMax_le x xs

end LinearHeap

section DrainLemmas

variable {α : Type*} [DecidableEq α]

theorem heapDrainGo_perm (cmp : α → α → Ordering) :
    ∀ (n : ℕ) (h : List α), h.length ≤ n → List.Perm (heapDrainGo cmp n h) h := by
  intro n
  induction n with
  | zero =>
      intro h hlen
      have : h = [] := List.length_eq_zero.mp (Nat.le_zero.mp hlen)
      subst this
      exact List.Perm.refl _
  | succ n ih =>
      intro h hlen
      show List.Perm (match heapFindMax cmp h with
        | none => []
        | some b => b :: heapDrainGo cmp n (h.erase b)) h
      split
      · next hm => rw [heapFindMax_eq_none.mp hm]
      · next b hm =>
          have hb := heapFindMax_mem hm
          have hlen2 : (h.erase b).length ≤ n := by
            have := List.length_erase_of_mem hb
            have hpos : 0 < h.length := List.length_pos.mpr
              (List.ne_nil_of_mem hb)
            omega
          exact ((ih (h.erase b) hlen2).cons b).trans
            (List.perm_cons_erase hb).symm

theorem heapDrain_perm (cmp : α → α → Ordering) (h : List α) :
    List.Perm (heapDrain cmp h) h :=
  heapDrainGo_perm cmp h.length h le_rfl

theorem heapDrainGo_sorted [LinearOrder α] :
    ∀ (n : ℕ) (h : List α), h.length ≤ n →
      (heapDrainGo (cmpOf α) n h).Sorted (· ≥ ·) := by
  intro n
  induction n with
  | zero =>
      intro h hlen
      exact List.sorted_nil
  | succ n ih =>
      intro h hlen
      show List.Sorted (· ≥ ·) (match heapFindMax (cmpOf α) h with
        | none => []
        | some b => b :: heapDrainGo (cmpOf α) n (h.erase b))
      split
      · exact List.sorted_nil
      · next b hm =>
          have hb := heapFindMax_mem hm
          have hlen2 : (h.erase b).length ≤ n := by
            have := List.length_erase_of_mem hb
            have hpos : 0 < h.length := List.length_pos.mpr
              (List.ne_nil_of_mem hb)
            omega
          rw [List.sorted_cons]
          refine ⟨?_, ih (h.erase b) hlen2⟩
          intro y hy
          have hy2 : y ∈ h.erase b :=
            (heapDrainGo_perm (cmpOf α) n (h.erase b) hlen2).mem_iff.mp hy
          exact heapFindMax_le hm y (List.erase_subset _ _ hy2)

theorem heapDrain_sorted [LinearOrder α] (h : List α) :
    (heapDrain (cmpOf α) h).Sorted (· ≥ ·) :=
  heapDrainGo_sorted h.length h le_rfl

end DrainLemmas

section HeapItemOrder

variable {α : Type*} [LinearOrder α]

theorem HeapItem.cmp_lt_char {a b : HeapItem α} :
    HeapItem.cmp (cmpOf α) a b = Ordering.lt ↔
      (a.item < b.item ∨ (a.item = b.item ∧ b.counter < a.counter)) := by
  unfold HeapItem.cmp
  rcases hc : cmpOf α a.item b.item with _ | _ | _ <;>
    rw [cmpOf_apply] at hc
  · have hlt : a.item < b.item := compare_lt_iff_lt.mp hc
    simp [hlt]
  · have heq : a.item = b.item := compare_eq_iff_eq.mp hc
    simp only [heq, lt_self_iff_false, false_or, true_and]
    exact compare_lt_iff_lt
  · have hgt : b.item < a.item := compare_gt_iff_gt.mp hc
    have h1 : ¬ a.item < b.item := not_lt_of_gt hgt
    have h2 : a.item ≠ b.item := ne_of_gt hgt
    simp [h1, h2]

theorem HeapItem.cmp_gt_char {a b : HeapItem α} :
    HeapItem.cmp (cmpOf α) a b = Ordering.gt ↔
      (b.item < a.item ∨ (a.item = b.item ∧ a.counter < b.counter)) := by
  unfold HeapItem.cmp
  rcases hc : cmpOf α a.item b.item with _ | _ | _ <;>
    rw [cmpOf_apply] at hc
  · have hlt : a.item < b.item := compare_lt_iff_lt.mp hc
    have h1 : ¬ b.item < a.item := not_lt_of_gt hlt
    have h2 : a.item ≠ b.item := ne_of_lt hlt
    simp [h1, h2]
  · have heq : a.item = b.item := compare_eq_iff_eq.mp hc
    simp only [heq, lt_self_iff_false, false_or, true_and]
    exact compare_gt_iff_gt
  · have hgt : b.item < a.item := compare_gt_iff_gt.mp hc
    simp [hgt]

theorem HeapItem.cmp_eq_char {a b : HeapItem α} :
    HeapItem.cmp (cmpOf α) a b = Ordering.eq ↔ a = b := by
  unfold HeapItem.cmp
  rcases hc : cmpOf α a.item b.item with _ | _ | _ <;>
    rw [cmpOf_apply] at hc
  · have hlt : a.item < b.item := compare_lt_iff_lt.mp hc
    have : a ≠ b := by
      intro h
      rw [h] at hlt
      exact lt_irrefl _ hlt
    simp [this]
  · have heq : a.item = b.item := compare_eq_iff_eq.mp hc
    simp only []
    rw [compare_eq_iff_eq]
    constructor
    · intro hcnt
      cases a
      cases b
      simp only at heq hcnt
      simp [heq, hcnt]
    · intro h
      rw [h]
  · have hgt : b.item < a.item := compare_gt_iff_gt.mp hc
    have : a ≠ b := by
      intro h
      rw [h] at hgt
      exact lt_irrefl _ hgt
    simp [this]

theorem HeapItem.cmp_ne_gt_char {a b : HeapItem α} :
    HeapItem.cmp (cmpOf α) a b ≠ Ordering.gt ↔
      (a.item < b.item ∨ (a.item = b.item ∧ b.counter ≤ a.counter)) := by
  constructor
  · intro h
    rcases hc : HeapItem.cmp (cmpOf α) a b with _ | _ | _
    · rcases HeapItem.cmp_lt_char.mp hc with h1 | ⟨h1, h2⟩
      · exact Or.inl h1
      · exact Or.inr ⟨h1, le_of_lt h2⟩
    · have := HeapItem.cmp_eq_char.mp hc
      subst this
      exact Or.inr ⟨rfl, le_rfl⟩
    · exact absurd hc h
  · intro h hgt
    rcases HeapItem.cmp_gt_char.mp hgt with h1 | ⟨h1, h2⟩
    · rcases h with h3 | ⟨h3, _⟩
      · exact absurd h3 (not_lt_of_gt h1)
      · rw [h3] at h1
        exact lt_irrefl _ h1
    · rcases h with h3 | ⟨_, h4⟩
      · rw [h1] at h3
        exact lt_irrefl _ h3
      · omega

/-- The composite comparator makes HeapItem a linear order whenever the
payload is linearly ordered (the payload order is antisymmetric, so ties in
the composite order force equal payloads and equal counters). -/
instance heapItemLinearOrder : LinearOrder (HeapItem α) where
  le a b := HeapItem.cmp (cmpOf α) a b ≠ Ordering.gt
  lt a b := HeapItem.cmp (cmpOf α) a b = Ordering.lt
  le_refl a := by
    show HeapItem.cmp (cmpOf α) a a ≠ Ordering.gt
    rw [HeapItem.cmp_ne_gt_char]
    exact Or.inr ⟨rfl, le_rfl⟩
  le_trans a b c hab hbc := by
    have hab2 : HeapItem.cmp (cmpOf α) a b ≠ Ordering.gt := hab
    have hbc2 : HeapItem.cmp (cmpOf α) b c ≠ Ordering.gt := hbc
    show HeapItem.cmp (cmpOf α) a c ≠ Ordering.gt
    rw [HeapItem.cmp_ne_gt_char] at hab2 hbc2 ⊢
    rcases hab2 with h1 | ⟨h1, h2⟩ <;> rcases hbc2 with h3 | ⟨h3, h4⟩
    · exact Or.inl (lt_trans h1 h3)
    · exact Or.inl (h3 ▸ h1)
    · exact Or.inl (h1 ▸ h3)
    · exact Or.inr ⟨h1.trans h3, le_trans h4 h2⟩
  le_antisymm a b hab hba := by
    have hab2 : HeapItem.cmp (cmpOf α) a b ≠ Ordering.gt := hab
    have hba2 : HeapItem.cmp (cmpOf α) b a ≠ Ordering.gt := hba
    rw [HeapItem.cmp_ne_gt_char] at hab2 hba2
    rcases hab2 with h1 | ⟨h1, h2⟩ <;> rcases hba2 with h3 | ⟨h3, h4⟩
    · exact absurd h3 (not_lt_of_gt h1)
    · rw [h3] at h1
      exact absurd h1 (lt_irrefl _)
    · rw [h1] at h3
      exact absurd h3 (lt_irrefl _)
    · cases a
      cases b
      simp only at h1 h2 h4 ⊢
      simp only [HeapItem.mk.injEq]
      exact ⟨h1, by omega⟩
  le_total a b := by
    show HeapItem.cmp (cmpOf α) a b ≠ Ordering.gt ∨
      HeapItem.cmp (cmpOf α) b a ≠ Ordering.gt
    rw [HeapItem.cmp_ne_gt_char, HeapItem.cmp_ne_gt_char]
    rcases lt_trichotomy a.item b.item with h | h | h
    · exact Or.inl (Or.inl h)
    · rcases le_total b.counter a.counter with h2 | h2
      · exact Or.inl (Or.inr ⟨h, h2⟩)
      · exact Or.inr (Or.inr ⟨h.symm, h2⟩)
    · exact Or.inr (Or.inl h)
  lt_iff_le_not_le a b := by
    show HeapItem.cmp (cmpOf α) a b = Ordering.lt ↔ _
    rw [HeapItem.cmp_lt_char]
    constructor
    · intro h
      constructor
      · show HeapItem.cmp (cmpOf α) a b ≠ Ordering.gt
        rw [HeapItem.cmp_ne_gt_char]
        rcases h with h1 | ⟨h1, h2⟩
        · exact Or.inl h1
        · exact Or.inr ⟨h1, le_of_lt h2⟩
      · intro hba
        have hba2 : HeapItem.cmp (cmpOf α) b a ≠ Ordering.gt := hba
        rw [HeapItem.cmp_ne_gt_char] at hba2
        rcases h with h1 | ⟨h1, h2⟩ <;> rcases hba2 with h3 | ⟨h3, h4⟩
        · exact absurd h3 (not_lt_of_gt h1)
        · rw [h3] at h1
          exact absurd h1 (lt_irrefl _)
        · rw [h1] at h3
          exact absurd h3 (lt_irrefl _)
        · omega
    · intro ⟨h1, h2⟩
      have h1b : HeapItem.cmp (cmpOf α) a b ≠ Ordering.gt := h1
      rw [HeapItem.cmp_ne_gt_char] at h1b
      rcases h1b with h3 | ⟨h3, h4⟩
      · exact Or.inl h3
      · refine Or.inr ⟨h3, ?_⟩
        rcases lt_or_eq_of_le h4 with h5 | h5
        · exact h5
        · exfalso
          apply h2
          show HeapItem.cmp (cmpOf α) b a ≠ Ordering.gt
          rw [HeapItem.cmp_ne_gt_char]
          exact Or.inr ⟨h3.symm, le_of_eq h5.symm⟩
  decidableLE a b :=
    inferInstanceAs (Decidable (HeapItem.cmp (cmpOf α) a b ≠ Ordering.gt))
  decidableEq a b := inferInstanceAs (Decidable (a = b))
  decidableLT a b :=
    inferInstanceAs (Decidable (HeapItem.cmp (cmpOf α) a b = Ordering.lt))

/-- The compare function of the HeapItem linear order agrees with the
source comparator (spec section 4.4). -/
theorem heapItem_compare_eq_cmp (a b : HeapItem α) :
    compare a b = HeapItem.cmp (cmpOf α) a b := by
  rcases hc : HeapItem.cmp (cmpOf α) a b with _ | _ | _
  · exact compare_lt_iff_lt.mpr hc
  · exact compare_eq_iff_eq.mpr (HeapItem.cmp_eq_char.mp hc)
  · refine compare_gt_iff_gt.mpr ?_
    show HeapItem.cmp (cmpOf α) b a = Ordering.lt
    rw [HeapItem.cmp_lt_char]
    rcases HeapItem.cmp_gt_char.mp hc with h | ⟨h1, h2⟩
    · exact Or.inl h
    · exact Or.inr ⟨h1.symm, h2⟩

/-- Functional form of the agreement, used to rewrite heap operations. -/
theorem heapItemCmp_eq_cmpOf :
    HeapItem.cmp (cmpOf α) = cmpOf (HeapItem α) := by
  funext a b
  rw [cmpOf_apply, heapItem_compare_eq_cmp]

end HeapItemOrder

section KBestTheory

variable {α : Type*} [LinearOrder α]

theorem kbest_le {K : ℕ} {m h t : Multiset α}
    (hh : KBest K m h) (ht : KBest K m t) : h ≤ t := by
  obtain ⟨hhm, hhc, hhb⟩ := hh
  obtain ⟨htm, htc, htb⟩ := ht
  rw [Multiset.le_iff_count]
  intro a
  by_contra hcnt
  push_neg at hcnt
  have ha_h : a ∈ h := by
    rw [← Multiset.one_le_count_iff_mem]
    omega
  have hex : ∃ b, Multiset.count b h < Multiset.count b t := by
    by_contra hall
    push_neg at hall
    have hle : t ≤ h := Multiset.le_iff_count.mpr hall
    have hcards : Multiset.card h ≤ Multiset.card t := by omega
    have : t = h := Multiset.eq_of_le_of_card_le hle hcards
    subst this
    omega
  obtain ⟨b, hb⟩ := hex
  have hb_t : b ∈ t := by
    rw [← Multiset.one_le_count_iff_mem]
    omega
  have hb_mh : b ∈ m - h := by
    rw [← Multiset.one_le_count_iff_mem, Multiset.count_sub]
    have := Multiset.le_iff_count.mp htm b
    omega
  have ha_mt : a ∈ m - t := by
    rw [← Multiset.one_le_count_iff_mem, Multiset.count_sub]
    have := Multiset.le_iff_count.mp hhm a
    omega
  have h1 : a ≤ b := hhb a ha_h b hb_mh
  have h2 : b ≤ a := htb b hb_t a ha_mt
  have hab : a = b := le_antisymm h1 h2
  subst hab
  omega

/-- A multiset m has at most one K-best sub-multiset: the bounded selection
result is determined by the input. -/
theorem kbest_unique {K : ℕ} {m h t : Multiset α}
    (hh : KBest K m h) (ht : KBest K m t) : h = t :=
  le_antisymm (kbest_le hh ht) (kbest_le ht hh)

/-- One step of PrioContainer::insert preserves the K-best invariant. -/
theorem insert_kbest {K : ℕ} (hK : 1 ≤ K) {s : PrioContainer α}
    {m : Multiset α} (hcap : s.capacity = K)
    (hb : KBest K m (s.heap : Multiset α)) (x : α) :
    (PrioContainer.insert (cmpOf α) s x).capacity = K ∧
      KBest K (x ::ₘ m) ((PrioContainer.insert (cmpOf α) s x).heap : Multiset α) := by
  obtain ⟨hhm, hhc, hhb⟩ := hb
  have hcount : ∀ c, Multiset.count c (s.heap : Multiset α) ≤ Multiset.count c m :=
    fun c => Multiset.le_iff_count.mp hhm c
  have hcard : Multiset.card (s.heap : Multiset α) = s.heap.length :=
    Multiset.coe_card s.heap
  by_cases hfull : s.heap.length < s.capacity
  · -- fill phase: the item is pushed unconditionally
    have hins : PrioContainer.insert (cmpOf α) s x
        = { s with heap := heapPush x s.heap } := by
      unfold PrioContainer.insert
      rw [if_pos hfull]
    rw [hins]
    dsimp only [heapPush]
    have hmeq : (s.heap : Multiset α) = m := by
      apply Multiset.eq_of_le_of_card_le hhm
      rw [hcap] at hfull
      omega
    refine ⟨hcap, ?_, ?_, ?_⟩
    · rw [← Multiset.cons_coe]
      exact Multiset.cons_le_cons x hhm
    · rw [← Multiset.cons_coe, Multiset.card_cons, Multiset.card_cons]
      rw [hcap] at hfull
      omega
    · -- before the container is full nothing has been discarded yet
      intro a _ c hcmem
      exfalso
      have hz : (x ::ₘ m) - ((x :: s.heap : List α) : Multiset α) = 0 := by
        rw [← Multiset.cons_coe, hmeq]
        exact tsub_self _
      rw [hz] at hcmem
      exact Multiset.not_mem_zero c hcmem
  · -- the container is full
    have hlenK : s.heap.length = K := by
      rw [hcap] at hfull
      omega
    have hmK : K ≤ Multiset.card m := by omega
    have hne : s.heap ≠ [] := by
      intro h0
      rw [h0] at hlenK
      simp at hlenK
      omega
    cases hpk : heapFindMax (cmpOf α) s.heap with
    | none => exact absurd (heapFindMax_eq_none.mp hpk) hne
    | some b =>
        have hbmem : b ∈ s.heap := heapFindMax_mem hpk
        have hbub : ∀ z ∈ s.heap, z ≤ b := heapFindMax_le hpk
        have hbcnt : 1 ≤ Multiset.count b (s.heap : Multiset α) :=
          Multiset.one_le_count_iff_mem.mpr (Multiset.mem_coe.mpr hbmem)
        by_cases hrep : cmpOf α b x = Ordering.gt
        · -- replacement: x is strictly below the boundary b
          have hxb : x < b := compare_gt_iff_gt.mp hrep
          have hins : PrioContainer.insert (cmpOf α) s x
              = { s with heap := heapPush x (s.heap.erase b) } := by
            unfold PrioContainer.insert
            rw [if_neg hfull, hpk]
            exact if_pos hrep
          rw [hins]
          dsimp only [heapPush]
          have hco : ((x :: s.heap.erase b : List α) : Multiset α)
              = x ::ₘ (s.heap : Multiset α).erase b := by
            rw [← Multiset.cons_coe, Multiset.coe_erase]
          rw [hco]
          refine ⟨hcap, ?_, ?_, ?_⟩
          · rw [Multiset.le_iff_count]
            intro c
            rw [Multiset.count_cons, Multiset.count_cons]
            have hc1 := hcount c
            rcases eq_or_ne c b with rfl | hcb
            · rw [Multiset.count_erase_self]
              omega
            · rw [Multiset.count_erase_of_ne hcb]
              omega
          · simp only [Multiset.card_cons]
            rw [Multiset.card_erase_of_mem (Multiset.mem_coe.mpr hbmem),
              Nat.pred_eq_sub_one]
            omega
          · intro a ha c hc
            -- characterise the discarded elements by counting
            have hcpos : 0 < Multiset.count c
                ((x ::ₘ m) - (x ::ₘ (s.heap : Multiset α).erase b)) :=
              Multiset.count_pos.mpr hc
            rw [Multiset.count_sub, Multiset.count_cons, Multiset.count_cons]
              at hcpos
            have hc2 : c ∈ m - (s.heap : Multiset α) ∨ c = b := by
              rcases eq_or_ne c b with rfl | hcb
              · exact Or.inr rfl
              · rw [Multiset.count_erase_of_ne hcb] at hcpos
                refine Or.inl ?_
                rw [← Multiset.count_pos, Multiset.count_sub]
                omega
            rcases Multiset.mem_cons.mp ha with rfl | ha2
            · rcases hc2 with hc1 | rfl
              · have hbc : b ≤ c := hhb b (Multiset.mem_coe.mpr hbmem) c hc1
                exact le_trans (le_of_lt hxb) hbc
              · exact le_of_lt hxb
            · have ha3 : a ∈ (s.heap : Multiset α) := Multiset.mem_of_mem_erase ha2
              rcases hc2 with hc1 | rfl
              · exact hhb a ha3 c hc1
              · exact hbub a (Multiset.mem_coe.mp ha3)
        · -- rejection: the boundary is at most x, state unchanged
          have hbx : b ≤ x := by
            have : ¬ b > x := fun hgt => hrep (compare_gt_iff_gt.mpr hgt)
            exact le_of_not_lt this
          have hins : PrioContainer.insert (cmpOf α) s x = s := by
            unfold PrioContainer.insert
            rw [if_neg hfull, hpk]
            exact if_neg hrep
          rw [hins]
          refine ⟨hcap, ?_, ?_, ?_⟩
          · exact le_trans hhm (Multiset.le_cons_self m x)
          · rw [Multiset.card_cons]
            omega
          · intro a ha c hc
            have hcpos : 0 < Multiset.count c
                ((x ::ₘ m) - (s.heap : Multiset α)) :=
              Multiset.count_pos.mpr hc
            rw [Multiset.count_sub, Multiset.count_cons] at hcpos
            have hc1 := hcount c
            rcases eq_or_ne c x with rfl | hcx
            · exact le_trans (hbub a (Multiset.mem_coe.mp ha)) hbx
            · rw [if_neg hcx] at hcpos
              have hc2 : c ∈ m - (s.heap : Multiset α) := by
                rw [← Multiset.count_pos, Multiset.count_sub]
                omega
              exact hhb a ha c hc2

/-- Extending a container that satisfies the K-best invariant with a whole
input list preserves it, accumulating the processed multiset. -/
theorem insertAll_kbest {K : ℕ} (hK : 1 ≤ K) :
    ∀ (l : List α) (s : PrioContainer α) (m : Multiset α),
      s.capacity = K → KBest K m (s.heap : Multiset α) →
      (PrioContainer.insertAll (cmpOf α) s l).capacity = K ∧
        KBest K (m + (l : Multiset α))
          ((PrioContainer.insertAll (cmpOf α) s l).heap : Multiset α) := by
  intro l
  induction l with
  | nil =>
      intro s m hcap hkb
      unfold PrioContainer.insertAll
      simp only [List.foldl_nil]
      refine ⟨hcap, ?_⟩
      simpa using hkb
  | cons x t ih =>
      intro s m hcap hkb
      have hstep := insert_kbest hK hcap hkb x
      have hrec := ih (PrioContainer.insert (cmpOf α) s x) (x ::ₘ m)
        hstep.1 hstep.2
      unfold PrioContainer.insertAll at hrec ⊢
      simp only [List.foldl_cons]
      refine ⟨hrec.1, ?_⟩
      have hm2 : m + ((x :: t : List α) : Multiset α)
          = (x ::ₘ m) + (t : Multiset α) := by
        rw [← Multiset.cons_coe, Multiset.add_cons, Multiset.cons_add]
      rw [hm2]
      exact hrec.2

/-- The truncation of the ascending sort is a K-best selection of the
input. -/
theorem take_sorted_kbest (K : ℕ) (xs : List α) :
    KBest K (xs : Multiset α)
      (((xs.insertionSort (· ≤ ·)).take K : List α) : Multiset α) := by
  have hperm : List.Perm (xs.insertionSort (· ≤ ·)) xs :=
    List.perm_insertionSort _ _
  have hsorted : (xs.insertionSort (· ≤ ·)).Sorted (· ≤ ·) :=
    List.sorted_insertionSort _ _
  have hsplit : (xs.insertionSort (· ≤ ·)).take K
      ++ (xs.insertionSort (· ≤ ·)).drop K = xs.insertionSort (· ≤ ·) :=
    List.take_append_drop K _
  have hco : (((xs.insertionSort (· ≤ ·)).take K : List α) : Multiset α)
      + (((xs.insertionSort (· ≤ ·)).drop K : List α) : Multiset α)
      = (xs : Multiset α) := by
    rw [Multiset.coe_add, hsplit]
    exact Multiset.coe_eq_coe.mpr hperm
  refine ⟨?_, ?_, ?_⟩
  · rw [← hco]
    exact self_le_add_right _ _
  · rw [Multiset.coe_card, Multiset.coe_card, List.length_take,
      List.length_insertionSort]
  · intro a ha b hb
    have hsub : (xs : Multiset α)
        - (((xs.insertionSort (· ≤ ·)).take K : List α) : Multiset α)
        = (((xs.insertionSort (· ≤ ·)).drop K : List α) : Multiset α) := by
      rw [← hco]
      exact add_tsub_cancel_left _ _
    rw [hsub] at hb
    have hpw := hsorted
    rw [← hsplit] at hpw
    exact (List.pairwise_append.mp hpw).2.2 a (Multiset.mem_coe.mp ha)
      b (Multiset.mem_coe.mp hb)

end KBestTheory

/-- The claim C1 theorem with full detail is assembled below; this lemma
fixes the sortedness of the reversed truncated sort. -/
theorem reverse_take_sorted {α : Type*} [LinearOrder α] (K : ℕ)
    (xs : List α) :
    (((xs.insertionSort (· ≤ ·)).take K).reverse).Sorted (· ≥ ·) := by
  have hsorted : (xs.insertionSort (· ≤ ·)).Sorted (· ≤ ·) :=
    List.sorted_insertionSort _ _
  have htake : ((xs.insertionSort (· ≤ ·)).take K).Pairwise (· ≤ ·) :=
    List.Pairwise.sublist (List.take_sublist K _) hsorted
  exact List.pairwise_reverse.mpr htake

/-- C1: for every capacity K >= 1 and every finite input sequence inserted
into the plain min-oriented selector (PrioContainer), draining it yields
exactly the min(K, input length) smallest elements of the input, emitted in
descending order: the drained output equals the full input sorted ascending,
truncated to its K smallest elements, then reversed. -/
theorem c1_plain_drain_eq_sorted_take_reverse {α : Type*} [LinearOrder α]
    (K : ℕ) (hK : 1 ≤ K) (s0 : PrioContainer α)
    (hnew : PrioContainer.new α K = some s0) (xs : List α) :
    PrioContainer.drain (cmpOf α) (PrioContainer.insertAll (cmpOf α) s0 xs)
      = ((xs.insertionSort (· ≤ ·)).take K).reverse := by
  have hs0 : s0 = { heap := [], capacity := K } := by
    unfold PrioContainer.new at hnew
    rw [if_neg (by omega)] at hnew
    exact (Option.some.injEq _ _).mp hnew.symm
  subst hs0
  have h0 : KBest K 0 ((([] : List α)) : Multiset α) := by
    refine ⟨le_rfl, by simp, ?_⟩
    intro a ha
    simp at ha
  have hall := insertAll_kbest hK xs { heap := [], capacity := K } 0 rfl h0
  have hkb : KBest K (xs : Multiset α)
      ((PrioContainer.insertAll (cmpOf α)
        { heap := [], capacity := K } xs).heap : Multiset α) := by
    have := hall.2
    rwa [zero_add] at this
  have heq := kbest_unique hkb (take_sorted_kbest K xs)
  have hperm : List.Perm
      (PrioContainer.insertAll (cmpOf α) { heap := [], capacity := K } xs).heap
      ((xs.insertionSort (· ≤ ·)).take K) := Multiset.coe_eq_coe.mp heq
  unfold PrioContainer.drain
  haveI : IsAntisymm α (· ≥ ·) := ⟨fun a b h1 h2 => le_antisymm h2 h1⟩
  have hp := ((heapDrain_perm (cmpOf α)
    (PrioContainer.insertAll (cmpOf α)
      { heap := [], capacity := K } xs).heap).trans hperm).trans
    (List.reverse_perm _).symm
  exact List.eq_of_perm_of_sorted hp (heapDrain_sorted _)
    (reverse_take_sorted K xs)

/-!
Step lemmas: capacity fields are untouched by insert, lengths stay within
the configured bound, and the attempt counters move as the code says.
-/

theorem plain_insert_capacity {α : Type*} (cmp : α → α → Ordering)
    [DecidableEq α] (s : PrioContainer α) (x : α) :
    (PrioContainer.insert cmp s x).capacity = s.capacity := by
  unfold PrioContainer.insert
  split
  · rfl
  · split
    · rfl
    · split <;> rfl

theorem plain_insert_len_le {α : Type*} (cmp : α → α → Ordering)
    [DecidableEq α] {s : PrioContainer α} (hle : s.heap.length ≤ s.capacity)
    (x : α) : (PrioContainer.insert cmp s x).heap.length ≤ s.capacity := by
  unfold PrioContainer.insert
  split
  · next hlt => simpa [heapPush] using hlt
  · next hge =>
      split
      · exact hle
      · next b hm =>
          split
          · have hb := heapFindMax_mem hm
            have hlen := List.length_erase_of_mem hb
            have hpos : 0 < s.heap.length := List.length_pos.mpr
              (List.ne_nil_of_mem hb)
            simp only [heapPush, List.length_cons, hlen]
            omega
          · exact hle

theorem plain_insertAll_inv {α : Type*} (cmp : α → α → Ordering)
    [DecidableEq α] :
    ∀ (l : List α) (s : PrioContainer α), s.heap.length ≤ s.capacity →
      (PrioContainer.insertAll cmp s l).capacity = s.capacity ∧
      (PrioContainer.insertAll cmp s l).heap.length ≤ s.capacity := by
  intro l
  induction l with
  | nil =>
      intro s h
      exact ⟨rfl, h⟩
  | cons x t ih =>
      intro s h
      unfold PrioContainer.insertAll at ih ⊢
      simp only [List.foldl_cons]
      have h1 := plain_insert_len_le cmp h x
      have h2 := plain_insert_capacity cmp s x
      have h3 := ih (PrioContainer.insert cmp s x) (h2 ▸ h1)
      exact ⟨h3.1.trans h2, h2 ▸ h3.2⟩

theorem stable_insert_capacity {α : Type*} (cmpa : α → α → Ordering)
    [DecidableEq α] (s : StablePrioContainer α) (x : α) :
    (StablePrioContainer.insert cmpa s x).1.capacity = s.capacity := by
  unfold StablePrioContainer.insert
  dsimp only
  split
  · rfl
  · split
    · rfl
    · split <;> rfl

theorem stable_insert_total {α : Type*} (cmpa : α → α → Ordering)
    [DecidableEq α] (s : StablePrioContainer α) (x : α) :
    (StablePrioContainer.insert cmpa s x).1.total_pushed
      = s.total_pushed + 1 := by
  unfold StablePrioContainer.insert
  dsimp only
  split
  · rfl
  · split
    · rfl
    · split <;> rfl

theorem stable_insert_len_le {α : Type*} (cmpa : α → α → Ordering)
    [DecidableEq α] {s : StablePrioContainer α}
    (hle : s.heap.length ≤ s.capacity) (x : α) :
    (StablePrioContainer.insert cmpa s x).1.heap.length ≤ s.capacity := by
  unfold StablePrioContainer.insert
  dsimp only
  split
  · next hlt => simpa [heapPush] using hlt
  · next hge =>
      split
      · exact hle
      · next b hm =>
          split
          · exact hle
          · have hb := heapFindMax_mem hm
            have hlen := List.length_erase_of_mem hb
            have hpos : 0 < s.heap.length := List.length_pos.mpr
              (List.ne_nil_of_mem hb)
            simp only [heapPush, List.length_cons, hlen]
            omega

theorem stable_insertAll_inv {α : Type*} (cmpa : α → α → Ordering)
    [DecidableEq α] :
    ∀ (l : List α) (s : StablePrioContainer α),
      s.heap.length ≤ s.capacity →
      (StablePrioContainer.insertAll cmpa s l).capacity = s.capacity ∧
      (StablePrioContainer.insertAll cmpa s l).heap.length ≤ s.capacity := by
  intro l
  induction l with
  | nil =>
      intro s h
      exact ⟨rfl, h⟩
  | cons x t ih =>
      intro s h
      unfold StablePrioContainer.insertAll at ih ⊢
      simp only [List.foldl_cons]
      have h1 := stable_insert_len_le cmpa h x
      have h2 := stable_insert_capacity cmpa s x
      have h3 := ih (StablePrioContainer.insert cmpa s x).1 (h2 ▸ h1)
      exact ⟨h3.1.trans h2, h2 ▸ h3.2⟩

theorem stable_insertAll_total {α : Type*} (cmpa : α → α → Ordering)
    [DecidableEq α] :
    ∀ (l : List α) (s : StablePrioContainer α),
      (StablePrioContainer.insertAll cmpa s l).total_pushed
        = s.total_pushed + l.length := by
  intro l
  induction l with
  | nil =>
      intro s
      rfl
  | cons x t ih =>
      intro s
      unfold StablePrioContainer.insertAll at ih ⊢
      simp only [List.foldl_cons, List.length_cons]
      rw [ih, stable_insert_total]
      omega

theorem length_filter_lt {α : Type*} (p : α → Bool) {l : List α} {a : α}
    (ha : a ∈ l) (hpa : p a = false) :
    (l.filter p).length < l.length := by
  induction l with
  | nil => simp at ha
  | cons y t ih =>
      rcases List.mem_cons.mp ha with rfl | ha2
      · rw [List.filter_cons, hpa]
        have := List.length_filter_le p t
        rw [if_neg (by simp)]
        simp only [List.length_cons]
        omega
      · rw [List.filter_cons]
        by_cases hy : p y = true
        · simp only [hy, if_pos]
          simp only [List.length_cons]
          have := ih ha2
          omega
        · rw [if_neg (by simp [hy])]
          have := ih ha2
          simp only [List.length_cons]
          omega

theorem unique_insert_capacity {α : Type*} (cmpa : α → α → Ordering)
    (beq : α → α → Bool) [DecidableEq α] (s : UniquePrioContainer α)
    (x : α) :
    (UniquePrioContainer.insert cmpa beq s x).1.capacity = s.capacity := by
  unfold UniquePrioContainer.insert UniquePrioContainer.replace_eq
  dsimp only
  split
  · split <;> rfl
  · split
    · rfl
    · split
      · rfl
      · split <;> rfl

theorem unique_insert_len_le {α : Type*} (cmpa : α → α → Ordering)
    (beq : α → α → Bool) [DecidableEq α] {s : UniquePrioContainer α}
    (hle : s.container.length ≤ s.capacity) (x : α) :
    (UniquePrioContainer.insert cmpa beq s x).1.container.length
      ≤ s.capacity := by
  unfold UniquePrioContainer.insert UniquePrioContainer.replace_eq
  dsimp only
  split
  · split
    · next hrep =>
        obtain ⟨i, hi, hp⟩ := List.any_eq_true.mp hrep
        have hbeq : beq i x = true := (Bool.and_eq_true _ _).mp hp |>.1
        have := length_filter_lt (fun j => !(beq j x)) hi (by simp [hbeq])
        simp only [heapPush, List.length_cons]
        omega
    · exact hle
  · split
    · next hlt => simpa [heapPush] using hlt
    · split
      · exact hle
      · next b hm =>
          split
          · exact hle
          · have hb := heapFindMax_mem hm
            have hlen := List.length_erase_of_mem hb
            have hpos : 0 < s.container.length := List.length_pos.mpr
              (List.ne_nil_of_mem hb)
            simp only [heapPush, List.length_cons, hlen]
            omega

theorem unique_insertAll_inv {α : Type*} (cmpa : α → α → Ordering)
    (beq : α → α → Bool) [DecidableEq α] :
    ∀ (l : List α) (s : UniquePrioContainer α),
      s.container.length ≤ s.capacity →
      (UniquePrioContainer.insertAll cmpa beq s l).capacity = s.capacity ∧
      (UniquePrioContainer.insertAll cmpa beq s l).container.length
        ≤ s.capacity := by
  intro l
  induction l with
  | nil =>
      intro s h
      exact ⟨rfl, h⟩
  | cons x t ih =>
      intro s h
      unfold UniquePrioContainer.insertAll at ih ⊢
      simp only [List.foldl_cons]
      have h1 := unique_insert_len_le cmpa beq h x
      have h2 := unique_insert_capacity cmpa beq s x
      have h3 := ih (UniquePrioContainer.insert cmpa beq s x).1 (h2 ▸ h1)
      exact ⟨h3.1.trans h2, h2 ▸ h3.2⟩

theorem unique_insert_total_dup {α : Type*} (cmpa : α → α → Ordering)
    (beq : α → α → Bool) [DecidableEq α] (s : UniquePrioContainer α)
    (x : α) (hdup : hashContains beq s.hash x = true) :
    (UniquePrioContainer.insert cmpa beq s x).1.total_pushed
      = s.total_pushed ∧
    (UniquePrioContainer.insert cmpa beq s x).2 = false := by
  unfold UniquePrioContainer.insert UniquePrioContainer.replace_eq
  rw [if_pos hdup]
  dsimp only
  split <;> exact ⟨rfl, rfl⟩

theorem unique_insert_total_nondup {α : Type*} (cmpa : α → α → Ordering)
    (beq : α → α → Bool) [DecidableEq α] {s : UniquePrioContainer α}
    (x : α) (hdup : hashContains beq s.hash x = false)
    (hK : 1 ≤ s.capacity) :
    (UniquePrioContainer.insert cmpa beq s x).1.total_pushed
      = s.total_pushed + 1 := by
  unfold UniquePrioContainer.insert
  rw [if_neg (by simp [hdup])]
  dsimp only
  split
  · rfl
  · next hfull =>
      split
      · next hm =>
          exfalso
          have : s.container = [] := heapFindMax_eq_none.mp hm
          rw [this] at hfull
          simp at hfull
          omega
      · split <;> rfl

theorem su_insert_capacity {α : Type*} (cmpa : α → α → Ordering)
    (beq : α → α → Bool) [DecidableEq α] (s : StableUniquePrioContainer α)
    (x : α) :
    (StableUniquePrioContainer.insert cmpa beq s x).1.container.capacity
      = s.container.capacity := by
  unfold StableUniquePrioContainer.insert StableUniquePrioContainer.replace_eq
  dsimp only
  split
  · split
    · rfl
    · rfl
  · exact stable_insert_capacity cmpa s.container x

theorem su_insert_len_le {α : Type*} (cmpa : α → α → Ordering)
    (beq : α → α → Bool) [DecidableEq α] {s : StableUniquePrioContainer α}
    (hle : s.container.heap.length ≤ s.container.capacity) (x : α) :
    (StableUniquePrioContainer.insert cmpa beq s x).1.container.heap.length
      ≤ s.container.capacity := by
  unfold StableUniquePrioContainer.insert StableUniquePrioContainer.replace_eq
  dsimp only
  split
  · split
    · next oc hfind =>
        obtain ⟨r, hr, hoc⟩ := Option.map_eq_some'.mp hfind
        have hmem := List.mem_of_find?_eq_some hr
        have hp := List.find?_some hr
        have hbeq : beq r.item x = true := ((Bool.and_eq_true _ _).mp hp).1
        have := length_filter_lt (fun j => !(beq j.item x)) hmem
          (by simp [hbeq])
        simp only [heapPush, List.length_cons]
        omega
    · exact hle
  · exact stable_insert_len_le cmpa hle x

theorem su_insertAll_inv {α : Type*} (cmpa : α → α → Ordering)
    (beq : α → α → Bool) [DecidableEq α] :
    ∀ (l : List α) (s : StableUniquePrioContainer α),
      s.container.heap.length ≤ s.container.capacity →
      (StableUniquePrioContainer.insertAll cmpa beq s l).container.capacity
        = s.container.capacity ∧
      (StableUniquePrioContainer.insertAll cmpa beq s l).container.heap.length
        ≤ s.container.capacity := by
  intro l
  induction l with
  | nil =>
      intro s h
      exact ⟨rfl, h⟩
  | cons x t ih =>
      intro s h
      unfold StableUniquePrioContainer.insertAll at ih ⊢
      simp only [List.foldl_cons]
      have h1 := su_insert_len_le cmpa beq h x
      have h2 := su_insert_capacity cmpa beq s x
      have h3 := ih (StableUniquePrioContainer.insert cmpa beq s x).1
        (h2 ▸ h1)
      exact ⟨h3.1.trans h2, h2 ▸ h3.2⟩

theorem su_insert_total_dup {α : Type*} (cmpa : α → α → Ordering)
    (beq : α → α → Bool) [DecidableEq α] (s : StableUniquePrioContainer α)
    (x : α) (hdup : hashContains beq s.hash x = true) :
    (StableUniquePrioContainer.insert cmpa beq s x).1.container.total_pushed
      = s.container.total_pushed ∧
    (StableUniquePrioContainer.insert cmpa beq s x).2 = false := by
  unfold StableUniquePrioContainer.insert StableUniquePrioContainer.replace_eq
  rw [if_pos hdup]
  dsimp only
  split <;> exact ⟨rfl, rfl⟩

theorem su_insert_total_nondup {α : Type*} (cmpa : α → α → Ordering)
    (beq : α → α → Bool) [DecidableEq α] (s : StableUniquePrioContainer α)
    (x : α) (hdup : hashContains beq s.hash x = false) :
    (StableUniquePrioContainer.insert cmpa beq s x).1.container.total_pushed
      = s.container.total_pushed + 1 := by
  unfold StableUniquePrioContainer.insert
  rw [if_neg (by simp [hdup])]
  dsimp only
  exact stable_insert_total cmpa s.container x

/-- C2: the claim says the membership hash set and the heap never diverge.
The code violates it: evaluating UniquePrioContainer with capacity 1 on the
inputs [1, 2] (a rejected insert) and [2, 1] (an eviction), the rejected key
2 stays registered in the hash set although no item with that key is
resident, and the evicted key 2 is never removed from the hash set. -/
theorem c2_index_heap_divergence :
    (hashContains (fun a b : ℕ => a == b)
        (UniquePrioContainer.insertAll (cmpOf ℕ) (fun a b => a == b)
          (UniquePrioContainer.new ℕ 1) [1, 2]).hash 2 = true
      ∧ (UniquePrioContainer.insertAll (cmpOf ℕ) (fun a b => a == b)
          (UniquePrioContainer.new ℕ 1) [1, 2]).container = [1])
    ∧ (hashContains (fun a b : ℕ => a == b)
        (UniquePrioContainer.insertAll (cmpOf ℕ) (fun a b => a == b)
          (UniquePrioContainer.new ℕ 1) [2, 1]).hash 2 = true
      ∧ (UniquePrioContainer.insertAll (cmpOf ℕ) (fun a b => a == b)
          (UniquePrioContainer.new ℕ 1) [2, 1]).container = [1]) := by
  decide

/-- C3: for every selector variant constructed with capacity K, the number
of resident items is at most K after every sequence of insert calls.  For
the unique container (whose constructor performs no capacity check and
whose insert has undefined behaviour for capacity 0) the statement assumes
the spec precondition K >= 1. -/
theorem c3_len_le_capacity :
    (∀ (α : Type) (cmp : α → α → Ordering) [DecidableEq α] (K : ℕ)
        (s0 : PrioContainer α), PrioContainer.new α K = some s0 →
        ∀ xs : List α,
          PrioContainer.len (PrioContainer.insertAll cmp s0 xs) ≤ K) ∧
    (∀ (α : Type) (cmpa : α → α → Ordering) [DecidableEq α] (K : ℕ)
        (s0 : StablePrioContainer α),
        StablePrioContainer.new α K = some s0 →
        ∀ xs : List α,
          StablePrioContainer.len
            (StablePrioContainer.insertAll cmpa s0 xs) ≤ K) ∧
    (∀ (α : Type) (cmpa : α → α → Ordering) (beq : α → α → Bool)
        [DecidableEq α] (K : ℕ), 1 ≤ K →
        ∀ xs : List α,
          UniquePrioContainer.len (UniquePrioContainer.insertAll cmpa beq
            (UniquePrioContainer.new α K) xs) ≤ K) ∧
    (∀ (α : Type) (cmpa : α → α → Ordering) (beq : α → α → Bool)
        [DecidableEq α] (K : ℕ) (s0 : StableUniquePrioContainer α),
        StableUniquePrioContainer.new α K = some s0 →
        ∀ xs : List α,
          StableUniquePrioContainer.len
            (StableUniquePrioContainer.insertAll cmpa beq s0 xs) ≤ K) := by
  refine ⟨?_, ?_, ?_, ?_⟩
  · intro α cmp _ K s0 hnew xs
    have hs0 : s0 = { heap := [], capacity := K } := by
      unfold PrioContainer.new at hnew
      split at hnew
      · exact absurd hnew (by simp)
      · exact (Option.some.injEq _ _).mp hnew.symm
    subst hs0
    exact (plain_insertAll_inv cmp xs { heap := [], capacity := K }
      (by simp)).2
  · intro α cmpa _ K s0 hnew xs
    have hs0 : s0 = { heap := [], total_pushed := 0, capacity := K, heapAlloc := 0 } := by
      unfold StablePrioContainer.new at hnew
      split at hnew
      · exact (Option.some.injEq _ _).mp hnew.symm
      · exact absurd hnew (by simp)
    subst hs0
    exact (stable_insertAll_inv cmpa xs _ (by simp)).2
  · intro α cmpa beq _ K _ xs
    exact (unique_insertAll_inv cmpa beq xs (UniquePrioContainer.new α K)
      (by simp [UniquePrioContainer.new])).2
  · intro α cmpa beq _ K s0 hnew xs
    have hs0 : s0 = { container := { heap := [], total_pushed := 0, capacity := K, heapAlloc := 0 }, hash := [] } := by
      unfold StableUniquePrioContainer.new StablePrioContainer.new at hnew
      split at hnew
      · exact (Option.some.injEq _ _).mp
          (by simpa [Option.map] using hnew.symm)
      · exact absurd hnew (by simp)
    subst hs0
    exact (su_insertAll_inv cmpa beq xs _ (by simp)).2

theorem c3_witness :
    PrioContainer.len (PrioContainer.insertAll (cmpOf ℕ)
      { heap := [], capacity := 2 } [3, 5, 10]) ≤ 2 ∧
    UniquePrioContainer.len (UniquePrioContainer.insertAll (cmpOf ℕ)
      (fun a b => a == b) (UniquePrioContainer.new ℕ 2) [3, 5, 10]) ≤ 2 :=
  ⟨c3_len_le_capacity.1 ℕ (cmpOf ℕ) 2 { heap := [], capacity := 2 }
      (by decide) [3, 5, 10],
    c3_len_le_capacity.2.2.1 ℕ (cmpOf ℕ) (fun a b => a == b) 2 (by decide)
      [3, 5, 10]⟩

/-- C7 counterexample: the claim says total_pushed counts every insert call,
including duplicate-path calls.  Two insert calls of the same key on the
unique containers leave the counter at 1, not 2. -/
theorem c7_counterexample :
    ([5, 5] : List ℕ).length = 2 ∧
    UniquePrioContainer.total_pushedFn
      (UniquePrioContainer.insertAll (cmpOf ℕ) (fun a b => a == b)
        (UniquePrioContainer.new ℕ 3) [5, 5]) = 1 ∧
    (StableUniquePrioContainer.new ℕ 3).map
      (fun s0 => StableUniquePrioContainer.total_pushedFn
        (StableUniquePrioContainer.insertAll (cmpOf ℕ) (fun a b => a == b)
          s0 [5, 5])) = some 1 := by
  decide

/-- C7 amended: total_pushed counts exactly the insert calls that do not
take the uniqueness-duplicate path.  On the stable (non-unique) container
every call counts; on the unique containers a duplicate-path call leaves
the counter unchanged and every other call increments it by one (for the
non-stable unique container assuming the configured capacity is at least
one, since capacity 0 reaches undefined behaviour). -/
theorem c7_amended :
    (∀ (α : Type) (cmpa : α → α → Ordering) [DecidableEq α]
        (s : StablePrioContainer α) (xs : List α),
        StablePrioContainer.total_pushedFn
          (StablePrioContainer.insertAll cmpa s xs)
          = s.total_pushed + xs.length) ∧
    (∀ (α : Type) (cmpa : α → α → Ordering) (beq : α → α → Bool)
        [DecidableEq α] (s : UniquePrioContainer α) (x : α),
        (hashContains beq s.hash x = true →
          (UniquePrioContainer.insert cmpa beq s x).1.total_pushed
            = s.total_pushed) ∧
        (hashContains beq s.hash x = false → 1 ≤ s.capacity →
          (UniquePrioContainer.insert cmpa beq s x).1.total_pushed
            = s.total_pushed + 1)) ∧
    (∀ (α : Type) (cmpa : α → α → Ordering) (beq : α → α → Bool)
        [DecidableEq α] (s : StableUniquePrioContainer α) (x : α),
        (hashContains beq s.hash x = true →
          (StableUniquePrioContainer.insert cmpa beq s x).1.container.total_pushed
            = s.container.total_pushed) ∧
        (hashContains beq s.hash x = false →
          (StableUniquePrioContainer.insert cmpa beq s x).1.container.total_pushed
            = s.container.total_pushed + 1)) := by
  refine ⟨?_, ?_, ?_⟩
  · intro α cmpa _ s xs
    exact stable_insertAll_total cmpa xs s
  · intro α cmpa beq _ s x
    exact ⟨fun h => (unique_insert_total_dup cmpa beq s x h).1,
      fun h hK => unique_insert_total_nondup cmpa beq x h hK⟩
  · intro α cmpa beq _ s x
    exact ⟨fun h => (su_insert_total_dup cmpa beq s x h).1,
      fun h => su_insert_total_nondup cmpa beq s x h⟩

theorem c7_amended_witness :
    (UniquePrioContainer.insert (cmpOf ℕ) (fun a b : ℕ => a == b)
      { container := [5], hash := [5], total_pushed := 1, capacity := 3,
        containerAlloc := 0 } 5).1.total_pushed = 1 ∧
    StablePrioContainer.total_pushedFn
      (StablePrioContainer.insertAll (cmpOf ℕ)
        { heap := [], total_pushed := 0, capacity := 1, heapAlloc := 0 }
        [5, 5]) = 0 + 2 :=
  ⟨(c7_amended.2.1 ℕ (cmpOf ℕ) (fun a b => a == b)
      { container := [5], hash := [5], total_pushed := 1, capacity := 3,
        containerAlloc := 0 } 5).1 (by decide),
    c7_amended.1 ℕ (cmpOf ℕ)
      { heap := [], total_pushed := 0, capacity := 1, heapAlloc := 0 }
      [5, 5]⟩

/-- C8: construction with capacity 0 panics for the plain, stable and
stable-unique containers, and any capacity at least 1 succeeds; but
UniquePrioContainer::new performs no capacity check at all, returning a
container for capacity 0 whose first non-duplicate insert reaches the
unsafe unwrap_unchecked of an empty heap (undefined behaviour), despite the
safety comment claiming the bound is enforced at construction. -/
theorem c8_zero_capacity_unique_unchecked :
    PrioContainer.new ℕ 0 = none ∧
    StablePrioContainer.new ℕ 0 = none ∧
    StableUniquePrioContainer.new ℕ 0 = none ∧
    (∀ K : ℕ, 1 ≤ K → (PrioContainer.new ℕ K).isSome = true ∧
      (StablePrioContainer.new ℕ K).isSome = true ∧
      (StableUniquePrioContainer.new ℕ K).isSome = true) ∧
    (UniquePrioContainer.new ℕ 0).capacity = 0 ∧
    UniquePrioContainer.insertChecked (cmpOf ℕ) (fun a b => a == b)
      (UniquePrioContainer.new ℕ 0) 1 = none := by
  refine ⟨rfl, rfl, rfl, ?_, rfl, by decide⟩
  intro K hK
  refine ⟨?_, ?_, ?_⟩
  · unfold PrioContainer.new
    rw [if_neg (by omega)]
    rfl
  · unfold StablePrioContainer.new
    rw [if_pos (by omega)]
    rfl
  · unfold StableUniquePrioContainer.new StablePrioContainer.new
    rw [if_pos (by omega)]
    rfl

theorem c8_witness :
    (PrioContainer.new ℕ 1).isSome = true ∧ StablePrioContainer.new ℕ 0 = none :=
  ⟨(c8_zero_capacity_unique_unchecked.2.2.2.1 1 (by decide)).1,
    c8_zero_capacity_unique_unchecked.2.1⟩

/-- C9: the claim says capacity() always returns the configured bound K.
The stable and unique containers instead return the allocation capacity of
the backing BinaryHeap (0 right after new, the pre-reservation size after
new_allocated); only the plain PrioContainer returns the configured K, and
does so stably across inserts. -/
theorem c9_capacity_reports_allocation :
    (StablePrioContainer.new ℕ 5).map StablePrioContainer.capacityFn
      = some 0 ∧
    (StablePrioContainer.new_allocated ℕ 5 3).map
      StablePrioContainer.capacityFn = some 3 ∧
    UniquePrioContainer.capacityFn (UniquePrioContainer.new ℕ 5) = 0 ∧
    (StableUniquePrioContainer.new ℕ 5).map
      StableUniquePrioContainer.capacityFn = some 0 ∧
    (∀ (K : ℕ) (s0 : PrioContainer ℕ), PrioContainer.new ℕ K = some s0 →
      ∀ xs : List ℕ, PrioContainer.capacityFn
        (PrioContainer.insertAll (cmpOf ℕ) s0 xs) = K) := by
  refine ⟨by decide, by decide, rfl, by decide, ?_⟩
  intro K s0 hnew xs
  have hs0 : s0 = { heap := [], capacity := K } := by
    unfold PrioContainer.new at hnew
    split at hnew
    · exact absurd hnew (by simp)
    · exact (Option.some.injEq _ _).mp hnew.symm
  subst hs0
  exact (plain_insertAll_inv (cmpOf ℕ) xs { heap := [], capacity := K }
    (by simp)).1

theorem c9_witness :
    PrioContainer.capacityFn (PrioContainer.insertAll (cmpOf ℕ)
      { heap := [], capacity := 2 } [3, 5, 10]) = 2 :=
  c9_capacity_reports_allocation.2.2.2.2 2 { heap := [], capacity := 2 }
    (by decide) [3, 5, 10]

theorem c1_witness :
    (1 : ℕ) ≤ 2 ∧
    PrioContainer.drain (cmpOf ℕ) (PrioContainer.insertAll (cmpOf ℕ)
      { heap := [], capacity := 2 } [3, 5, 10])
      = (([3, 5, 10].insertionSort (· ≤ ·)).take 2).reverse :=
  ⟨by decide, c1_plain_drain_eq_sorted_take_reverse 2 (by decide)
    { heap := [], capacity := 2 } (by decide) [3, 5, 10]⟩

/-- C4 counterexample: the claim says a rejected insert against a full
container leaves the stored contents unchanged and returns false.  For the
unique container with capacity 1 holding item 1, inserting 2 does return
false, but the stored state changes: the rejected key 2 is registered in
the membership hash set and the attempt counter moves. -/
theorem c4_counterexample :
    (UniquePrioContainer.insert (cmpOf ℕ) (fun a b => a == b)
      (UniquePrioContainer.insertAll (cmpOf ℕ) (fun a b => a == b)
        (UniquePrioContainer.new ℕ 1) [1]) 2).2 = false ∧
    ¬ (UniquePrioContainer.insert (cmpOf ℕ) (fun a b => a == b)
        (UniquePrioContainer.insertAll (cmpOf ℕ) (fun a b => a == b)
          (UniquePrioContainer.new ℕ 1) [1]) 2).1
      = UniquePrioContainer.insertAll (cmpOf ℕ) (fun a b => a == b)
        (UniquePrioContainer.new ℕ 1) [1] := by
  decide

/-- C6 counterexample: the claim says that when the container is full, a
new item that ties with the boundary in base order is rejected in favor of
the earlier-arrived resident.  StablePrioContainer with capacity 1 holding
the item 5 (arrival 1) accepts a second 5: insert returns true and the
resident is replaced by the later arrival (counter 2). -/
theorem c6_counterexample :
    (StablePrioContainer.new ℕ 1).map (fun s0 =>
      ((StablePrioContainer.insert (cmpOf ℕ)
          (StablePrioContainer.insert (cmpOf ℕ) s0 5).1 5).2,
        (StablePrioContainer.insert (cmpOf ℕ)
          (StablePrioContainer.insert (cmpOf ℕ) s0 5).1 5).1.heap))
      = some (true, [{ item := 5, counter := 2 }]) := by
  decide

/-- C10: for every element type whose equality is consistent with its
ordering (x == y implies the comparison is Equal, as the Rust Ord contract
requires, which under a lawful total order forces x = y), the duplicate
path of unique insert never modifies the heap: the replacement guard needs
a resident both equal to and strictly greater than the new item, which is
unsatisfiable, so replace_eq is the identity and a duplicate insert
returns false leaving the whole state unchanged. -/
theorem c10_duplicate_path_frame :
    ∀ (α : Type) [inst : LinearOrder α] (beq : α → α → Bool),
      (∀ x y, beq x y = true → x = y) →
      ∀ (s : UniquePrioContainer α) (t : StableUniquePrioContainer α)
        (x : α),
        UniquePrioContainer.replace_eq (cmpOf α) beq s x = s ∧
        StableUniquePrioContainer.replace_eq (cmpOf α) beq t x = t ∧
        (hashContains beq s.hash x = true →
          UniquePrioContainer.insert (cmpOf α) beq s x = (s, false)) ∧
        (hashContains beq t.hash x = true →
          StableUniquePrioContainer.insert (cmpOf α) beq t x
            = (t, false)) := by
  intro α inst beq hcons s t x
  have hpred : ∀ i : α,
      (beq i x && decide (cmpOf α x i = Ordering.lt)) = false := by
    intro i
    cases hb : beq i x with
    | false => simp
    | true =>
        have hix : i = x := hcons i x hb
        subst hix
        simp [cmpOf_apply, compare_lt_iff_lt]
  have hrep1 : UniquePrioContainer.replace_eq (cmpOf α) beq s x = s := by
    unfold UniquePrioContainer.replace_eq
    dsimp only
    rw [if_neg ?_]
    rw [Bool.not_eq_true, List.any_eq_false]
    intro i _
    simp [hpred i]
  have hrep2 : StableUniquePrioContainer.replace_eq (cmpOf α) beq t x
      = t := by
    unfold StableUniquePrioContainer.replace_eq
    have hfind : t.container.heap.find?
        (fun i => beq i.item x && decide (cmpOf α x i.item = Ordering.lt))
        = none := by
      rw [List.find?_eq_none]
      intro i _
      simp [hpred i.item]
    rw [hfind]
    rfl
  refine ⟨hrep1, hrep2, ?_, ?_⟩
  · intro hdup
    unfold UniquePrioContainer.insert
    rw [if_pos hdup, hrep1]
  · intro hdup
    unfold StableUniquePrioContainer.insert
    rw [if_pos hdup, hrep2]

theorem c10_witness :
    UniquePrioContainer.insert (cmpOf ℕ) (fun a b => a == b)
      { container := [5], hash := [5], total_pushed := 1, capacity := 3, containerAlloc := 0 } 5
      = ({ container := [5], hash := [5], total_pushed := 1, capacity := 3, containerAlloc := 0 }, false) :=
  (c10_duplicate_path_frame ℕ (fun a b => a == b)
    (fun x y h => by simpa using h)
    { container := [5], hash := [5], total_pushed := 1, capacity := 3, containerAlloc := 0 }
    { container := { heap := [], total_pushed := 0, capacity := 1, heapAlloc := 0 }, hash := [] }
    5).2.2.1 (by decide)

/-- C4 amended: when a selector already holds K resident items, insert
compares the new item against the boundary, the greatest resident under
the internal order (the composite HeapItem order for the stable
container).  If boundary <= new item, the resident items are unchanged and
the stable and unique inserts return false, though the unique insert still
registers the rejected key in the membership index and the attempt
counters still move; otherwise the boundary is replaced in place and they
return true.  The plain PrioContainer has the same resident-set behaviour,
but its insert returns no value at all. -/
theorem c4_amended :
    (∀ (α : Type) [inst : LinearOrder α] (s : PrioContainer α) (x r : α),
      s.heap.length = s.capacity → r ∈ s.heap → (∀ z ∈ s.heap, z ≤ r) →
      (r ≤ x → PrioContainer.insert (cmpOf α) s x = s) ∧
      (x < r → PrioContainer.insert (cmpOf α) s x
        = { s with heap := heapPush x (s.heap.erase r) })) ∧
    (∀ (α : Type) [inst : LinearOrder α] (s : StablePrioContainer α)
      (x : α) (r : HeapItem α),
      s.heap.length = s.capacity → r ∈ s.heap → (∀ z ∈ s.heap, z ≤ r) →
      (r ≤ ⟨x, s.total_pushed + 1⟩ →
        StablePrioContainer.insert (cmpOf α) s x
          = ({ s with total_pushed := s.total_pushed + 1 }, false)) ∧
      ((⟨x, s.total_pushed + 1⟩ : HeapItem α) < r →
        StablePrioContainer.insert (cmpOf α) s x
          = ({ s with heap := heapPush ⟨x, s.total_pushed + 1⟩ (s.heap.erase r), total_pushed := s.total_pushed + 1 }, true))) ∧
    (∀ (α : Type) [inst : LinearOrder α] (beq : α → α → Bool)
      (s : UniquePrioContainer α) (x r : α),
      hashContains beq s.hash x = false →
      s.container.length = s.capacity → r ∈ s.container →
      (∀ z ∈ s.container, z ≤ r) →
      (r ≤ x → UniquePrioContainer.insert (cmpOf α) beq s x
        = ({ s with hash := x :: s.hash, total_pushed := s.total_pushed + 1 }, false)) ∧
      (x < r → UniquePrioContainer.insert (cmpOf α) beq s x
        = ({ s with container := heapPush x (s.container.erase r), hash := x :: s.hash, total_pushed := s.total_pushed + 1 }, true))) := by
  refine ⟨?_, ?_, ?_⟩
  · intro α inst s x r hfull hr hmax
    have hfm : ∃ b, heapFindMax (cmpOf α) s.heap = some b := by
      cases hpk : heapFindMax (cmpOf α) s.heap with
      | none => exact absurd (heapFindMax_eq_none.mp hpk) (List.ne_nil_of_mem hr)
      | some b => exact ⟨b, rfl⟩
    obtain ⟨b, hpk⟩ := hfm
    have hbr : b = r := le_antisymm (hmax b (heapFindMax_mem hpk))
      (heapFindMax_le hpk r hr)
    subst hbr
    constructor
    · intro hrx
      unfold PrioContainer.insert
      rw [if_neg (by omega), hpk]
      exact if_neg (fun hgt =>
        absurd (compare_gt_iff_gt.mp hgt) (not_lt.mpr hrx))
    · intro hxr
      unfold PrioContainer.insert
      rw [if_neg (by omega), hpk]
      exact if_pos (compare_gt_iff_gt.mpr hxr)
  · intro α inst s x r hfull hr hmax
    have hfm : ∃ b, heapFindMax (cmpOf (HeapItem α)) s.heap = some b := by
      cases hpk : heapFindMax (cmpOf (HeapItem α)) s.heap with
      | none => exact absurd (heapFindMax_eq_none.mp hpk) (List.ne_nil_of_mem hr)
      | some b => exact ⟨b, rfl⟩
    obtain ⟨b, hpk⟩ := hfm
    have hbr : b = r := le_antisymm (hmax b (heapFindMax_mem hpk))
      (heapFindMax_le hpk r hr)
    subst hbr
    constructor
    · intro hle
      unfold StablePrioContainer.insert
      dsimp only
      rw [if_neg (by omega), heapItemCmp_eq_cmpOf, hpk]
      exact if_pos (compare_le_iff_le.mpr hle)
    · intro hlt
      unfold StablePrioContainer.insert
      dsimp only
      rw [if_neg (by omega), heapItemCmp_eq_cmpOf, hpk]
      exact if_neg (not_not_intro (compare_gt_iff_gt.mpr hlt))
  · intro α inst beq s x r hnd hfull hr hmax
    have hfm : ∃ b, heapFindMax (cmpOf α) s.container = some b := by
      cases hpk : heapFindMax (cmpOf α) s.container with
      | none => exact absurd (heapFindMax_eq_none.mp hpk) (List.ne_nil_of_mem hr)
      | some b => exact ⟨b, rfl⟩
    obtain ⟨b, hpk⟩ := hfm
    have hbr : b = r := le_antisymm (hmax b (heapFindMax_mem hpk))
      (heapFindMax_le hpk r hr)
    subst hbr
    constructor
    · intro hrx
      unfold UniquePrioContainer.insert
      rw [if_neg (by simp [hnd])]
      dsimp only
      rw [if_neg (by omega), hpk]
      exact if_pos (fun hgt =>
        absurd (compare_gt_iff_gt.mp hgt) (not_lt.mpr hrx))
    · intro hxr
      unfold UniquePrioContainer.insert
      rw [if_neg (by simp [hnd])]
      dsimp only
      rw [if_neg (by omega), hpk]
      exact if_neg (not_not_intro (compare_gt_iff_gt.mpr hxr))

theorem c4_amended_witness :
    PrioContainer.insert (cmpOf ℕ) { heap := [3, 5], capacity := 2 } 10
      = { heap := [3, 5], capacity := 2 } ∧
    (StablePrioContainer.insert (cmpOf ℕ)
      { heap := [{ item := 5, counter := 1 }], total_pushed := 1, capacity := 1, heapAlloc := 0 } 3)
      = ({ heap := [{ item := 3, counter := 2 }], total_pushed := 2, capacity := 1, heapAlloc := 0 }, true) :=
  ⟨(c4_amended.1 ℕ { heap := [3, 5], capacity := 2 } 10 5 (by decide)
      (by decide) (by decide)).1 (by decide),
    (c4_amended.2.1 ℕ
      { heap := [{ item := 5, counter := 1 }], total_pushed := 1, capacity := 1, heapAlloc := 0 }
      3 { item := 5, counter := 1 } (by decide) (by decide) (by decide)).2
      (by decide)⟩

theorem stable_insert_counters {α : Type*} (cmpa : α → α → Ordering)
    [DecidableEq α] {s : StablePrioContainer α}
    (h : ∀ i ∈ s.heap, i.counter ≤ s.total_pushed) (x : α) :
    ∀ i ∈ (StablePrioContainer.insert cmpa s x).1.heap,
      i.counter ≤ (StablePrioContainer.insert cmpa s x).1.total_pushed := by
  unfold StablePrioContainer.insert
  dsimp only
  split
  · intro i hi
    simp only [heapPush] at hi
    rcases List.mem_cons.mp hi with rfl | hi2
    · simp
    · have := h i hi2
      dsimp only
      omega
  · split
    · intro i hi
      have := h i hi
      dsimp only
      omega
    · split
      · intro i hi
        have := h i hi
        dsimp only
        omega
      · intro i hi
        simp only [heapPush] at hi
        rcases List.mem_cons.mp hi with rfl | hi2
        · simp
        · have := h i (List.erase_subset _ _ hi2)
          dsimp only
          omega

theorem stable_insertAll_counters {α : Type*} (cmpa : α → α → Ordering)
    [DecidableEq α] :
    ∀ (l : List α) (s : StablePrioContainer α),
      (∀ i ∈ s.heap, i.counter ≤ s.total_pushed) →
      ∀ i ∈ (StablePrioContainer.insertAll cmpa s l).heap,
        i.counter ≤ (StablePrioContainer.insertAll cmpa s l).total_pushed := by
  intro l
  induction l with
  | nil =>
      intro s h
      exact h
  | cons x t ih =>
      intro s h
      unfold StablePrioContainer.insertAll at ih ⊢
      simp only [List.foldl_cons]
      exact ih (StablePrioContainer.insert cmpa s x).1
        (stable_insert_counters cmpa h x)

theorem stable_insert_arrival {α : Type*} (cmpa : α → α → Ordering)
    [DecidableEq α] {s : StablePrioContainer α} {ys : List α}
    (htot : s.total_pushed = ys.length)
    (hpw : s.heap.Pairwise (fun a b => a.counter ≠ b.counter))
    (hpos : ∀ i ∈ s.heap,
      1 ≤ i.counter ∧ ys[i.counter - 1]? = some i.item) (x : α) :
    (StablePrioContainer.insert cmpa s x).1.total_pushed
        = (ys ++ [x]).length ∧
    (StablePrioContainer.insert cmpa s x).1.heap.Pairwise
        (fun a b => a.counter ≠ b.counter) ∧
    ∀ i ∈ (StablePrioContainer.insert cmpa s x).1.heap,
      1 ≤ i.counter ∧ (ys ++ [x])[i.counter - 1]? = some i.item := by
  have hbound : ∀ i ∈ s.heap, i.counter ≤ ys.length := by
    intro i hi
    have h1 := (hpos i hi).1
    have h2 := (hpos i hi).2
    have hlt : i.counter - 1 < ys.length := by
      by_contra hge
      rw [List.getElem?_eq_none (le_of_not_lt hge)] at h2
      exact absurd h2 (by simp)
    omega
  have hext : ∀ i ∈ s.heap,
      1 ≤ i.counter ∧ (ys ++ [x])[i.counter - 1]? = some i.item := by
    intro i hi
    refine ⟨(hpos i hi).1, ?_⟩
    have hlt : i.counter - 1 < ys.length := by
      have hb := hbound i hi
      have h1 := (hpos i hi).1
      omega
    rw [List.getElem?_append_left hlt]
    exact (hpos i hi).2
  have hnew : (ys ++ [x])[s.total_pushed + 1 - 1]? = some x := by
    have hidx : s.total_pushed + 1 - 1 = ys.length := by omega
    rw [hidx]
    exact List.getElem?_concat_length ys x
  unfold StablePrioContainer.insert
  dsimp only
  split
  · refine ⟨by simp [htot], ?_, ?_⟩
    · simp only [heapPush]
      rw [List.pairwise_cons]
      refine ⟨?_, hpw⟩
      intro b hb
      have hb2 := hbound b hb
      show s.total_pushed + 1 ≠ b.counter
      omega
    · intro i hi
      simp only [heapPush] at hi
      rcases List.mem_cons.mp hi with rfl | hi2
      · exact ⟨Nat.succ_le_succ (Nat.zero_le _), hnew⟩
      · exact hext i hi2
  · split
    · exact ⟨by simp [htot], hpw, hext⟩
    · split
      · exact ⟨by simp [htot], hpw, hext⟩
      · refine ⟨by simp [htot], ?_, ?_⟩
        · simp only [heapPush]
          rw [List.pairwise_cons]
          refine ⟨?_, hpw.sublist (List.erase_sublist _ _)⟩
          intro b hb
          have hb2 := hbound b (List.erase_subset _ _ hb)
          show s.total_pushed + 1 ≠ b.counter
          omega
        · intro i hi
          simp only [heapPush] at hi
          rcases List.mem_cons.mp hi with rfl | hi2
          · exact ⟨Nat.succ_le_succ (Nat.zero_le _), hnew⟩
          · exact hext i (List.erase_subset _ _ hi2)

theorem stable_insertAll_arrival {α : Type*} (cmpa : α → α → Ordering)
    [DecidableEq α] :
    ∀ (xs ys : List α) (s : StablePrioContainer α),
      s.total_pushed = ys.length →
      s.heap.Pairwise (fun a b => a.counter ≠ b.counter) →
      (∀ i ∈ s.heap,
        1 ≤ i.counter ∧ ys[i.counter - 1]? = some i.item) →
      (StablePrioContainer.insertAll cmpa s xs).total_pushed
          = (ys ++ xs).length ∧
      (StablePrioContainer.insertAll cmpa s xs).heap.Pairwise
          (fun a b => a.counter ≠ b.counter) ∧
      ∀ i ∈ (StablePrioContainer.insertAll cmpa s xs).heap,
        1 ≤ i.counter ∧ (ys ++ xs)[i.counter - 1]? = some i.item := by
  intro xs
  induction xs with
  | nil =>
      intro ys s htot hpw hpos
      unfold StablePrioContainer.insertAll
      simp only [List.foldl_nil, List.append_nil]
      exact ⟨htot, hpw, hpos⟩
  | cons x t ih =>
      intro ys s htot hpw hpos
      have hstep := stable_insert_arrival cmpa htot hpw hpos x
      have hrec := ih (ys ++ [x]) (StablePrioContainer.insert cmpa s x).1
        hstep.1 hstep.2.1 hstep.2.2
      rw [List.append_assoc, List.singleton_append] at hrec
      unfold StablePrioContainer.insertAll at hrec ⊢
      simp only [List.foldl_cons]
      exact hrec

theorem heapDrain_arrival_pairwise {α : Type*} [LinearOrder α]
    (h : List (HeapItem α))
    (hpw : h.Pairwise (fun a b => a.counter ≠ b.counter)) :
    (heapDrain (HeapItem.cmp (cmpOf α)) h).Pairwise
      (fun a b => a.item = b.item → a.counter < b.counter) := by
  rw [heapItemCmp_eq_cmpOf]
  have hs : (heapDrain (cmpOf (HeapItem α)) h).Sorted (· ≥ ·) :=
    heapDrain_sorted h
  have hs2 : (heapDrain (cmpOf (HeapItem α)) h).Pairwise (· ≥ ·) := hs
  have hperm : List.Perm (heapDrain (cmpOf (HeapItem α)) h) h :=
    heapDrain_perm _ h
  have hpw2 : (heapDrain (cmpOf (HeapItem α)) h).Pairwise
      (fun a b => a.counter ≠ b.counter) :=
    (List.Perm.pairwise_iff (fun hab => Ne.symm hab) hperm).mpr hpw
  refine List.Pairwise.imp ?_ (List.Pairwise.and hs2 hpw2)
  intro a b hab hitem
  obtain ⟨hge, hne⟩ := hab
  have hle : HeapItem.cmp (cmpOf α) b a ≠ Ordering.gt := hge
  rw [HeapItem.cmp_ne_gt_char] at hle
  rcases hle with h1 | ⟨h1, h2⟩
  · rw [hitem] at h1
    exact absurd h1 (lt_irrefl _)
  · exact lt_of_le_of_ne h2 hne

/-- C6 amended: with stability enabled, equal-priority items drain in their
original arrival order, universally: for every linearly ordered payload
type, capacity and insert sequence, the drained HeapItem stream of the
resulting StablePrioContainer has strictly increasing arrival counters
among items of equal payload, each resident's counter names the position of
the insert call that produced it, and the public drain is the payload
projection of that stream (the spec scenario with capacity 10 and tags
9 8 7 a b c d e is an instance, checked concretely).  But when the
container is full, a newly inserted item that ties with the boundary in
base order is accepted, not rejected: the new arrival carries the largest
sequence number, so it is strictly below the boundary in the composite
order, insert returns true, and the earlier-arrived boundary is replaced
in place by the later item. -/
theorem c6_amended :
    (∀ (α : Type) [inst : LinearOrder α] (K : ℕ)
      (s0 : StablePrioContainer α), StablePrioContainer.new α K = some s0 →
      ∀ xs : List α,
      (heapDrain (HeapItem.cmp (cmpOf α))
        (StablePrioContainer.insertAll (cmpOf α) s0 xs).heap).Pairwise
          (fun a b => a.item = b.item → a.counter < b.counter) ∧
      (∀ i ∈ (StablePrioContainer.insertAll (cmpOf α) s0 xs).heap,
        1 ≤ i.counter ∧ xs[i.counter - 1]? = some i.item) ∧
      StablePrioContainer.drain (cmpOf α)
        (StablePrioContainer.insertAll (cmpOf α) s0 xs)
        = (heapDrain (HeapItem.cmp (cmpOf α))
            (StablePrioContainer.insertAll (cmpOf α) s0 xs).heap).map
            HeapItem.item) ∧
    ((StablePrioContainer.new (CustomOrd String) 10).map (fun s0 =>
      (StablePrioContainer.drain CustomOrd.cmp
        (StablePrioContainer.insertAll CustomOrd.cmp s0
          [{ ord := 3, val := "9" }, { ord := 2, val := "8" },
           { ord := 2, val := "7" }, { ord := 1, val := "a" },
           { ord := 1, val := "b" }, { ord := 1, val := "c" },
           { ord := 1, val := "d" }, { ord := 0, val := "e" }])).map
        CustomOrd.val)
      = some ["9", "8", "7", "a", "b", "c", "d", "e"]) ∧
    (∀ (α : Type) [inst : LinearOrder α] (K : ℕ)
      (s0 : StablePrioContainer α), StablePrioContainer.new α K = some s0 →
      ∀ (xs : List α) (r : HeapItem α) (x : α),
      r ∈ (StablePrioContainer.insertAll (cmpOf α) s0 xs).heap →
      (∀ z ∈ (StablePrioContainer.insertAll (cmpOf α) s0 xs).heap, z ≤ r) →
      (StablePrioContainer.insertAll (cmpOf α) s0 xs).heap.length
        = (StablePrioContainer.insertAll (cmpOf α) s0 xs).capacity →
      r.item = x →
      (StablePrioContainer.insert (cmpOf α)
        (StablePrioContainer.insertAll (cmpOf α) s0 xs) x).2 = true ∧
      (StablePrioContainer.insert (cmpOf α)
        (StablePrioContainer.insertAll (cmpOf α) s0 xs) x).1.heap
        = heapPush ⟨x, (StablePrioContainer.insertAll (cmpOf α) s0 xs).total_pushed + 1⟩
            ((StablePrioContainer.insertAll (cmpOf α) s0 xs).heap.erase r)) := by
  refine ⟨?_, by decide, ?_⟩
  · intro α inst K s0 hnew xs
    have hs0 : s0 = { heap := [], total_pushed := 0, capacity := K, heapAlloc := 0 } := by
      unfold StablePrioContainer.new at hnew
      split at hnew
      · exact (Option.some.injEq _ _).mp hnew.symm
      · exact absurd hnew (by simp)
    have harr := stable_insertAll_arrival (cmpOf α) xs [] s0
      (by rw [hs0]; rfl) (by rw [hs0]; exact List.Pairwise.nil)
      (by rw [hs0]; intro i hi; simp at hi)
    rw [List.nil_append] at harr
    refine ⟨heapDrain_arrival_pairwise _ harr.2.1, harr.2.2, rfl⟩
  · intro α inst K s0 hnew xs r x hr hmax hfull htie
    have hs0 : s0 = { heap := [], total_pushed := 0, capacity := K, heapAlloc := 0 } := by
      unfold StablePrioContainer.new at hnew
      split at hnew
      · exact (Option.some.injEq _ _).mp hnew.symm
      · exact absurd hnew (by simp)
    have hcnts := stable_insertAll_counters (cmpOf α) xs s0
      (by rw [hs0]; intro i hi; simp at hi)
    have hcnt : r.counter
        ≤ (StablePrioContainer.insertAll (cmpOf α) s0 xs).total_pushed :=
      hcnts r hr
    have hgt : HeapItem.cmp (cmpOf α) r
        ⟨x, (StablePrioContainer.insertAll (cmpOf α) s0 xs).total_pushed + 1⟩
        = Ordering.gt := by
      unfold HeapItem.cmp
      dsimp only
      rw [cmpOf_apply, htie]
      rw [show compare x x = Ordering.eq from compare_eq_iff_eq.mpr rfl]
      exact compare_gt_iff_gt.mpr (by omega)
    have hgt2 : cmpOf (HeapItem α) r
        ⟨x, (StablePrioContainer.insertAll (cmpOf α) s0 xs).total_pushed + 1⟩
        = Ordering.gt := by
      rw [cmpOf_apply, heapItem_compare_eq_cmp]
      exact hgt
    have hfm : ∃ b, heapFindMax (cmpOf (HeapItem α))
        (StablePrioContainer.insertAll (cmpOf α) s0 xs).heap = some b := by
      cases hpk : heapFindMax (cmpOf (HeapItem α))
          (StablePrioContainer.insertAll (cmpOf α) s0 xs).heap with
      | none => exact absurd (heapFindMax_eq_none.mp hpk) (List.ne_nil_of_mem hr)
      | some b => exact ⟨b, rfl⟩
    obtain ⟨b, hpk⟩ := hfm
    have hbr : b = r := le_antisymm (hmax b (heapFindMax_mem hpk))
      (heapFindMax_le hpk r hr)
    subst hbr
    have hins : StablePrioContainer.insert (cmpOf α)
        (StablePrioContainer.insertAll (cmpOf α) s0 xs) x
        = ({ StablePrioContainer.insertAll (cmpOf α) s0 xs with
              heap := heapPush ⟨x, (StablePrioContainer.insertAll (cmpOf α) s0 xs).total_pushed + 1⟩ ((StablePrioContainer.insertAll (cmpOf α) s0 xs).heap.erase b),
              total_pushed := (StablePrioContainer.insertAll (cmpOf α) s0 xs).total_pushed + 1 }, true) := by
      unfold StablePrioContainer.insert
      dsimp only
      rw [if_neg (by omega), heapItemCmp_eq_cmpOf, hpk]
      exact if_neg (not_not_intro hgt2)
    refine ⟨?_, ?_⟩
    · rw [hins]
    · rw [hins]

theorem c6_amended_witness :
    ((heapDrain (HeapItem.cmp (cmpOf ℕ))
      (StablePrioContainer.insertAll (cmpOf ℕ)
        { heap := [], total_pushed := 0, capacity := 2, heapAlloc := 0 }
        [5, 5, 3]).heap).Pairwise
        (fun a b => a.item = b.item → a.counter < b.counter)) ∧
    (StablePrioContainer.insert (cmpOf ℕ) (StablePrioContainer.insertAll
      (cmpOf ℕ) { heap := [], total_pushed := 0, capacity := 1, heapAlloc := 0 } [5]) 5).2 = true :=
  ⟨(c6_amended.1 ℕ 2 { heap := [], total_pushed := 0, capacity := 2, heapAlloc := 0 }
      (by decide) [5, 5, 3]).1,
    (c6_amended.2.2 ℕ 1 { heap := [], total_pushed := 0, capacity := 1, heapAlloc := 0 }
      (by decide) [5] ⟨5, 1⟩ 5 (by decide) (by decide) (by decide) rfl).1⟩

theorem find?_eq_some_of_unique {α : Type*} (p : α → Bool) :
    ∀ (l : List α) (r : α), r ∈ l → p r = true →
      (∀ i ∈ l, i ≠ r → p i = false) → l.find? p = some r := by
  intro l
  induction l with
  | nil =>
      intro r hr _ _
      simp at hr
  | cons y t ih =>
      intro r hr hpr hothers
      by_cases hpy : p y = true
      · have hyr : y = r := by
          by_contra hne
          rw [hothers y (List.mem_cons_self _ _) hne] at hpy
          exact Bool.false_ne_true hpy
        rw [List.find?_cons_of_pos _ hpy, hyr]
      · have hyr : y ≠ r := fun h => hpy (h ▸ hpr)
        have hrt : r ∈ t := by
          rcases List.mem_cons.mp hr with h | h
          · exact absurd h.symm hyr
          · exact h
        rw [List.find?_cons_of_neg _ (by simp [hpy])]
        exact ih r hrt hpr
          (fun i hi hne => hothers i (List.mem_cons_of_mem _ hi) hne)

theorem filter_eq_erase_of_unique {α : Type*} [DecidableEq α]
    (p : α → Bool) :
    ∀ (l : List α) (r : α), r ∈ l → p r = false →
      (∀ i ∈ l, i ≠ r → p i = true) → l.count r ≤ 1 →
      l.filter p = l.erase r := by
  intro l
  induction l with
  | nil =>
      intro r hr _ _ _
      simp at hr
  | cons y t ih =>
      intro r hr hpr hkeep hcnt
      by_cases hyr : y = r
      · subst hyr
        rw [List.filter_cons, hpr, if_neg (by simp), List.erase_cons_head]
        have hnt : y ∉ t := by
          intro hmem
          rw [List.count_cons_self] at hcnt
          have h1 : 0 < t.count y := List.count_pos_iff.mpr hmem
          omega
        apply List.filter_eq_self.mpr
        intro a ha
        exact hkeep a (List.mem_cons_of_mem _ ha)
          (fun h => hnt (h ▸ ha))
      · have hrt : r ∈ t := by
          rcases List.mem_cons.mp hr with h | h
          · exact absurd h.symm hyr
          · exact h
        have hpy : p y = true := hkeep y (List.mem_cons_self _ _) hyr
        have hcnt2 : t.count r ≤ 1 := by
          rw [List.count_cons_of_ne (fun h => hyr h.symm)] at hcnt
          exact hcnt
        rw [List.filter_cons, hpy, if_pos rfl,
          List.erase_cons_tail (by simp [hyr]),
          ih r hrt hpr
            (fun i hi hne => hkeep i (List.mem_cons_of_mem _ hi) hne)
            hcnt2]

theorem count_le_one_of_pairwise {α : Type*} [DecidableEq α]
    {R : α → α → Prop} {l : List α} (hp : l.Pairwise R) {r : α}
    (hir : ¬ R r r) : l.count r ≤ 1 := by
  by_contra h
  push_neg at h
  have hdup : l.Duplicate r := List.duplicate_iff_two_le_count.mpr (by omega)
  have hsub : [r, r].Sublist l := List.duplicate_iff_sublist.mp hdup
  have hpp := hp.sublist hsub
  rw [List.pairwise_cons] at hpp
  exact hir (hpp.1 r (List.mem_cons_self _ _))

theorem stable_insert_heap_shape {α : Type*} (cmpa : α → α → Ordering)
    [DecidableEq α] (s : StablePrioContainer α) (x : α) :
    (StablePrioContainer.insert cmpa s x).1.heap = s.heap ∨
    (StablePrioContainer.insert cmpa s x).1.heap
      = ⟨x, s.total_pushed + 1⟩ :: s.heap ∨
    ∃ b ∈ s.heap, (StablePrioContainer.insert cmpa s x).1.heap
      = ⟨x, s.total_pushed + 1⟩ :: s.heap.erase b := by
  unfold StablePrioContainer.insert
  dsimp only
  split
  · exact Or.inr (Or.inl rfl)
  · split
    · exact Or.inl rfl
    · next b hm =>
        split
        · exact Or.inl rfl
        · exact Or.inr (Or.inr ⟨b, heapFindMax_mem hm, rfl⟩)

theorem su_insert_suinv {α : Type*} (cmpa : α → α → Ordering)
    (beq : α → α → Bool) [DecidableEq α]
    (hrefl : ∀ a, beq a a = true)
    (hsymm : ∀ a b, beq a b = true → beq b a = true)
    (htrans : ∀ a b c, beq a b = true → beq b c = true → beq a c = true)
    {s : StableUniquePrioContainer α} (hs : SUInv beq s) (x : α) :
    SUInv beq (StableUniquePrioContainer.insert cmpa beq s x).1 := by
  obtain ⟨hI1, hI2⟩ := hs
  by_cases hdup : hashContains beq s.hash x = true
  · unfold StableUniquePrioContainer.insert
    rw [if_pos hdup]
    unfold StableUniquePrioContainer.replace_eq
    dsimp only
    split
    · next oc hoc =>
        obtain ⟨w, hw, hbwx⟩ := List.any_eq_true.mp hdup
        constructor
        · intro i hi
          simp only [heapPush] at hi
          rcases List.mem_cons.mp hi with rfl | hi2
          · exact ⟨w, hw, hbwx⟩
          · exact hI1 i (List.mem_of_mem_filter hi2)
        · simp only [heapPush]
          rw [List.pairwise_cons]
          constructor
          · intro j hj
            have hkeep := List.of_mem_filter hj
            have hfj : beq j.item x = false := by
              cases hb : beq j.item x with
              | false => rfl
              | true =>
                  rw [hb] at hkeep
                  simp at hkeep
            cases hb : beq x j.item with
            | false => rfl
            | true =>
                rw [hsymm x j.item hb] at hfj
                exact absurd hfj (by simp)
          · exact hI2.sublist (List.filter_sublist _)
    · exact ⟨hI1, hI2⟩
  · have hdup2 : hashContains beq s.hash x = false := by
      cases h : hashContains beq s.hash x with
      | false => rfl
      | true => exact absurd h hdup
    have hfresh : ∀ i ∈ s.container.heap, beq i.item x = false := by
      intro i hi
      cases hb : beq i.item x with
      | false => rfl
      | true =>
          exfalso
          obtain ⟨w, hw, hbw⟩ := hI1 i hi
          have : beq w x = true := htrans w i.item x hbw hb
          have : hashContains beq s.hash x = true :=
            List.any_eq_true.mpr ⟨w, hw, this⟩
          rw [this] at hdup2
          exact absurd hdup2 (by simp)
    have hfresh2 : ∀ i ∈ s.container.heap, beq x i.item = false := by
      intro i hi
      cases hb : beq x i.item with
      | false => rfl
      | true =>
          have := hsymm x i.item hb
          rw [hfresh i hi] at this
          exact absurd this (by simp)
    unfold StableUniquePrioContainer.insert
    rw [if_neg (by simp [hdup2])]
    dsimp only
    rcases stable_insert_heap_shape cmpa s.container x with hsh | hsh | ⟨b, hb, hsh⟩
    · constructor
      · intro i hi
        rw [hsh] at hi
        obtain ⟨w, hw, hbw⟩ := hI1 i hi
        exact ⟨w, List.mem_cons_of_mem _ hw, hbw⟩
      · rw [hsh]
        exact hI2
    · constructor
      · intro i hi
        rw [hsh] at hi
        rcases List.mem_cons.mp hi with rfl | hi2
        · exact ⟨x, List.mem_cons_self _ _, hrefl x⟩
        · obtain ⟨w, hw, hbw⟩ := hI1 i hi2
          exact ⟨w, List.mem_cons_of_mem _ hw, hbw⟩
      · rw [hsh, List.pairwise_cons]
        exact ⟨fun j hj => hfresh2 j hj, hI2⟩
    · constructor
      · intro i hi
        rw [hsh] at hi
        rcases List.mem_cons.mp hi with rfl | hi2
        · exact ⟨x, List.mem_cons_self _ _, hrefl x⟩
        · obtain ⟨w, hw, hbw⟩ := hI1 i (List.erase_subset _ _ hi2)
          exact ⟨w, List.mem_cons_of_mem _ hw, hbw⟩
      · rw [hsh, List.pairwise_cons]
        refine ⟨fun j hj => hfresh2 j (List.erase_subset _ _ hj), ?_⟩
        exact hI2.sublist (List.erase_sublist _ _)

theorem su_insertAll_suinv {α : Type*} (cmpa : α → α → Ordering)
    (beq : α → α → Bool) [DecidableEq α]
    (hrefl : ∀ a, beq a a = true)
    (hsymm : ∀ a b, beq a b = true → beq b a = true)
    (htrans : ∀ a b c, beq a b = true → beq b c = true → beq a c = true) :
    ∀ (l : List α) (s : StableUniquePrioContainer α), SUInv beq s →
      SUInv beq (StableUniquePrioContainer.insertAll cmpa beq s l) := by
  intro l
  induction l with
  | nil =>
      intro s h
      exact h
  | cons x t ih =>
      intro s h
      unfold StableUniquePrioContainer.insertAll at ih ⊢
      simp only [List.foldl_cons]
      exact ih (StableUniquePrioContainer.insert cmpa beq s x).1
        (su_insert_suinv cmpa beq hrefl hsymm htrans h x)

/-- C5: under uniqueness (StableUniquePrioContainer, with HeapItem modelled
from spec section 4.4), in every reachable state the hash set registers
every resident key and no two residents share a key; inserting an item
whose key is already resident always returns false, and additionally: if
the new item is strictly better (smaller) than the same-keyed resident,
the resident payload is replaced in place keeping the resident's arrival
counter, and otherwise nothing at all is changed. -/
theorem c5_unique_duplicate :
    ∀ (α : Type) [inst : LinearOrder α] (beq : α → α → Bool),
      (∀ a, beq a a = true) →
      (∀ a b, beq a b = true → beq b a = true) →
      (∀ a b c, beq a b = true → beq b c = true → beq a c = true) →
      (∀ (K : ℕ) (s0 : StableUniquePrioContainer α),
        StableUniquePrioContainer.new α K = some s0 →
        ∀ xs : List α,
          SUInv beq (StableUniquePrioContainer.insertAll (cmpOf α) beq s0 xs)) ∧
      (∀ (s : StableUniquePrioContainer α), SUInv beq s →
        ∀ (r : HeapItem α) (x : α), r ∈ s.container.heap →
          beq r.item x = true →
          ((StableUniquePrioContainer.insert (cmpOf α) beq s x).2 = false) ∧
          (x < r.item →
            (StableUniquePrioContainer.insert (cmpOf α) beq s x).1
              = { s with container := { s.container with heap := heapPush ⟨x, r.counter⟩ (s.container.heap.erase r) } }) ∧
          (¬ x < r.item →
            StableUniquePrioContainer.insert (cmpOf α) beq s x
              = (s, false))) := by
  intro α inst beq hrefl hsymm htrans
  constructor
  · intro K s0 hnew xs
    have hs0 : s0 = { container := { heap := [], total_pushed := 0, capacity := K, heapAlloc := 0 }, hash := [] } := by
      unfold StableUniquePrioContainer.new StablePrioContainer.new at hnew
      split at hnew
      · exact (Option.some.injEq _ _).mp
          (by simpa [Option.map] using hnew.symm)
      · exact absurd hnew (by simp)
    apply su_insertAll_suinv (cmpOf α) beq hrefl hsymm htrans
    rw [hs0]
    constructor
    · intro i hi
      simp at hi
    · exact List.Pairwise.nil
  · intro s hsinv r x hr hbeq
    obtain ⟨hI1, hI2⟩ := hsinv
    have hdup : hashContains beq s.hash x = true := by
      obtain ⟨w, hw, hbw⟩ := hI1 r hr
      exact List.any_eq_true.mpr ⟨w, hw, htrans w r.item x hbw hbeq⟩
    have hOnce : ∀ i ∈ s.container.heap, i ≠ r → beq i.item x = false := by
      intro i hi hne
      cases hb : beq i.item x with
      | false => rfl
      | true =>
          exfalso
          have hir : beq i.item r.item = true :=
            htrans i.item x r.item hb (hsymm r.item x hbeq)
          have hPsymm : Symmetric
              (fun a b : HeapItem α => beq a.item b.item = false) := by
            intro a b hab
            cases hba : beq b.item a.item with
            | false => rfl
            | true =>
                rw [hsymm b.item a.item hba] at hab
                exact absurd hab (by simp)
          have hfalse := List.Pairwise.forall hPsymm hI2 hi hr hne
          rw [hir] at hfalse
          exact absurd hfalse (by simp)
    have h1 : (StableUniquePrioContainer.insert (cmpOf α) beq s x).2
        = false := by
      unfold StableUniquePrioContainer.insert
      rw [if_pos hdup]
    refine ⟨h1, ?_, ?_⟩
    · intro hx
      have hpredr : (fun i : HeapItem α =>
          beq i.item x && decide (cmpOf α x i.item = Ordering.lt)) r
          = true := by
        simp [hbeq, cmpOf_apply, compare_lt_iff_lt, hx]
      have hothers : ∀ i ∈ s.container.heap, i ≠ r →
          (fun i : HeapItem α =>
            beq i.item x && decide (cmpOf α x i.item = Ordering.lt)) i
            = false := by
        intro i hi hne
        simp [hOnce i hi hne]
      have hfind := find?_eq_some_of_unique _ s.container.heap r hr
        hpredr hothers
      have hcntle : s.container.heap.count r ≤ 1 :=
        count_le_one_of_pairwise hI2 (by simp [hrefl r.item])
      have hfilter : s.container.heap.filter (fun i => !(beq i.item x))
          = s.container.heap.erase r := by
        apply filter_eq_erase_of_unique _ _ _ hr (by simp [hbeq]) ?_ hcntle
        intro i hi hne
        simp [hOnce i hi hne]
      unfold StableUniquePrioContainer.insert
      rw [if_pos hdup]
      unfold StableUniquePrioContainer.replace_eq
      dsimp only
      rw [hfind]
      rw [hfilter]
      rfl
    · intro hnx
      have hothers : ∀ i ∈ s.container.heap,
          (beq i.item x && decide (cmpOf α x i.item = Ordering.lt))
            = false := by
        intro i hi
        by_cases hir : i = r
        · subst hir
          simp [cmpOf_apply, compare_lt_iff_lt, hnx]
        · simp [hOnce i hi hir]
      have hfind : s.container.heap.find?
          (fun i => beq i.item x && decide (cmpOf α x i.item = Ordering.lt))
          = none := by
        rw [List.find?_eq_none]
        intro i hi
        simp [hothers i hi]
      unfold StableUniquePrioContainer.insert
      rw [if_pos hdup]
      unfold StableUniquePrioContainer.replace_eq
      rw [hfind]
      rfl

theorem c5_witness :
    (StableUniquePrioContainer.insert (cmpOf ℕ) (fun a b => a / 10 == b / 10)
      { container := { heap := [⟨15, 1⟩], total_pushed := 1, capacity := 2, heapAlloc := 0 }, hash := [15] } 12).2 = false ∧
    (StableUniquePrioContainer.insert (cmpOf ℕ) (fun a b => a / 10 == b / 10)
      { container := { heap := [⟨15, 1⟩], total_pushed := 1, capacity := 2, heapAlloc := 0 }, hash := [15] } 12).1
      = { container := { heap := heapPush ⟨12, 1⟩ ([(⟨15, 1⟩ : HeapItem ℕ)].erase ⟨15, 1⟩), total_pushed := 1, capacity := 2, heapAlloc := 0 }, hash := [15] } := by
  have h := (c5_unique_duplicate ℕ (fun a b => a / 10 == b / 10)
    (fun a => by simp)
    (fun a b hab => by simp at hab ⊢; omega)
    (fun a b c hab hbc => by simp at hab hbc ⊢; omega)).2
    { container := { heap := [⟨15, 1⟩], total_pushed := 1, capacity := 2, heapAlloc := 0 }, hash := [15] }
    (by refine ⟨?_, ?_⟩ <;> decide)
    ⟨15, 1⟩ 12 (by decide) (by decide)
  exact ⟨h.1, h.2.1 (by decide)⟩

end PrioSpec
